import Mathlib

/-!
Verification of the Shamir secret-sharing implementation in
`src/libs/common/embit/shamir_crypto.py`.

The Python module is shallowly embedded below.  Machine integers are `Nat`
(Python's unbounded `int`), byte strings are `List Nat` (one entry per byte),
and Python exceptions are `Except ShamirErr`.  Each `while` loop is embedded
as a structurally recursive function on a fuel argument that is at least the
number of iterations the Python loop performs, and which tests the loop's
guard at every step, so a sufficient fuel reproduces the loop exactly; the
fuel chosen is provably sufficient for every input on which the Python loop
terminates (for `_div_gf2` the Python loop diverges when `b = 0` and
`a >= b`; the embedding is used, as in the source, only on terminating
inputs).

The class-level mutable state `_Element.field_size` / `_Element.irr_poly`
is threaded explicitly: the arithmetic methods receive the two values as
parameters `fs`/`irr` (their reads of the class attributes), and
`set_field_size` is modelled as a state transformer on `PyState`.

The bip39 mnemonic codec (`mnemonic_to_bytes` / `mnemonic_from_bytes`) and
`hashlib.pbkdf2_hmac` are outside the embedded module; they enter as
function parameters `mtb`, `mfb` and `pbkdf2`.
-/

/-- Python exceptions raised by the module, named after the specification's
error taxonomy.  `unsupportedFieldSize` is the `KeyError` raised by the
`irr_poly_table` lookup in `set_field_size`; `invalidEncoding` is the
`ValueError` raised by `_Element.__init__` on a byte string of the wrong
width; `inversionOfZero` and `duplicateShare` are the two explicit
`ValueError`s; `emptyShares` is the `IndexError` raised by `shares[0]`
in `combine` on an empty list. -/
inductive ShamirErr where
  | unsupportedFieldSize
  | invalidEncoding
  | inversionOfZero
  | duplicateShare
  | emptyShares
  deriving DecidableEq, Repr

/-- Python's `int.bit_length`, equivalently `len(bin(n)) - 2` for `n > 0`.
Fuel-based so that the kernel can evaluate it; `fuel = n + 1` always
suffices since `bit_length n ≤ n` for `n ≥ 1`. -/
def bitLenAux : Nat → Nat → Nat
  | 0, _ => 0
  | fuel+1, n => if n = 0 then 0 else bitLenAux fuel (n / 2) + 1

/-- `bitLen n` is the number of binary digits of `n` (`0` for `n = 0`). -/
def bitLen (n : Nat) : Nat := bitLenAux (n + 1) n

/-- Loop body of `_mult_gf2`: `while f2: if f2 & 1: z ^= f1; f1 <<= 1; f2 >>= 1`.
The loop runs `bit_length f2` times, so fuel `f2 + 1` suffices. -/
def multGf2Loop : Nat → Nat → Nat → Nat → Nat
  | 0, _, _, z => z
  | fuel+1, f1, f2, z =>
    if f2 = 0 then z
    else multGf2Loop fuel (f1 * 2) (f2 / 2) (if f2 % 2 = 1 then z ^^^ f1 else z)

/-- `_mult_gf2(f1, f2)`: multiply two polynomials over GF(2), no reduction. -/
def mult_gf2 (f1 f2 : Nat) : Nat :=
  let p := if f2 > f1 then (f2, f1) else (f1, f2)
  multGf2Loop (p.2 + 1) p.1 p.2 0

/-- The local `deg` function of `_div_gf2`: `0 if n == 0 else len(bin(n)) - 2`.
(`bitLen` already returns `0` at `0`.) -/
def deg (n : Nat) : Nat := bitLen n

/-- Loop body of `_div_gf2`:
`while deg(r) >= d: s = 1 << (deg(r) - d); q ^= s; r ^= _mult_gf2(b, s)`.
Each iteration strictly decreases `deg r` when `b ≠ 0`, so fuel `r + 1`
suffices on the inputs where the Python loop terminates. -/
def divGf2Loop (b d : Nat) : Nat → Nat → Nat → Nat × Nat
  | 0, q, r => (q, r)
  | fuel+1, q, r =>
    if deg r ≥ d then
      let s := 1 <<< (deg r - d)
      divGf2Loop b d fuel (q ^^^ s) (r ^^^ mult_gf2 b s)
    else (q, r)

/-- `_div_gf2(a, b)`: division with remainder of polynomials over GF(2);
returns `(q, r)` with `a = b*q + r`.  (For `b = 0` the Python loop does not
terminate; as in the source, the function is only ever applied to `b ≠ 0`.) -/
def div_gf2 (a b : Nat) : Nat × Nat :=
  if a < b then (0, a)
  else divGf2Loop b (deg b) (a + 1) 0 a

/-- `_Element.irr_poly_table`: the five irreducible polynomials, keyed by
field size; `none` models the `KeyError` on any other key. -/
def irr_poly_table (field_size : Nat) : Option Nat :=
  if field_size = 128 then some (1 + 2^11 + 2^35 + 2^77 + 2^128)
  else if field_size = 160 then some (1 + 2^30 + 2^56 + 2^101 + 2^160)
  else if field_size = 192 then some (1 + 2^17 + 2^103 + 2^142 + 2^192)
  else if field_size = 224 then some (1 + 4 + 2^39 + 2^116 + 2^224)
  else if field_size = 256 then some (1 + 2^121 + 2^178 + 2^241 + 2^256)
  else none

/-- The class-level mutable state of `_Element`:
`(_Element.field_size, _Element.irr_poly)`, each `none` while unset. -/
structure PyState where
  field_size : Option Nat
  irr_poly : Option Nat
  deriving DecidableEq, Repr

/-- `_Element.set_field_size(field_size)`.  The `field_size` attribute is
assigned first; the table lookup then either assigns `irr_poly` or raises
`KeyError` (leaving `irr_poly` unchanged). -/
def set_field_size (fs : Nat) (st : PyState) : PyState × Except ShamirErr Unit :=
  match irr_poly_table fs with
  | some p => (⟨some fs, some p⟩, Except.ok ())
  | none => (⟨some fs, st.irr_poly⟩, Except.error ShamirErr.unsupportedFieldSize)

/-- `int.from_bytes(bs, 'big')`. -/
def bytesToNat (bs : List Nat) : Nat := bs.foldl (fun a b => a * 256 + b) 0

/-- `n.to_bytes(len, 'big')` (defined for every `n`; Python raises
`OverflowError` when `n ≥ 256 ^ len`, which never happens at the call
sites, where `n < 2 ^ field_size`). -/
def natToBytes (len n : Nat) : List Nat :=
  (List.range len).map (fun i => n / 256 ^ (len - 1 - i) % 256)

/-- `_Element.__init__` on a byte-string argument: requires exactly
`field_size/8` bytes, else `ValueError`.  The value is the big-endian
integer. -/
def elemOfBytes (fs : Nat) (bs : List Nat) : Except ShamirErr Nat :=
  if bs.length = fs / 8 then Except.ok (bytesToNat bs)
  else Except.error ShamirErr.invalidEncoding

/-- `_Element.encode()`: big-endian byte string of `field_size/8` bytes. -/
def elemEncode (fs : Nat) (v : Nat) : List Nat := natToBytes (fs / 8) v

/-- `_Element.__add__`: bitwise XOR. -/
def elemAdd (a b : Nat) : Nat := a ^^^ b

/-- Loop body of `_Element.__mul__`.  Per iteration (in source order):
`mask2 = int(bin(f2 & 1)[2:] * field_size, 2)` (all-ones iff the low bit of
`f2` is set), `z = (mask2 & (z ^ v)) | ((mask1 - mask2 - 1) & z)`,
`v <<= 1`, `mask3 = int(bin((v >> field_size) & 1)[2:] * field_size, 2)`,
`v = (mask3 & (v ^ irr_poly)) | ((mask1 - mask3 - 1) & v)`, `f2 >>= 1`.
The loop runs `bit_length f2` times, so fuel `f2 + 1` suffices. -/
def elemMulLoop (fs irr : Nat) : Nat → Nat → Nat → Nat → Nat
  | 0, _, z, _ => z
  | fuel+1, v, z, f2 =>
    if f2 = 0 then z
    else
      let mask1 := 2 ^ fs
      let mask2 := if f2 % 2 = 1 then 2 ^ fs - 1 else 0
      let z' := (mask2 &&& (z ^^^ v)) ||| ((mask1 - mask2 - 1) &&& z)
      let v1 := v <<< 1
      let mask3 := if (v1 >>> fs) % 2 = 1 then 2 ^ fs - 1 else 0
      let v' := (mask3 &&& (v1 ^^^ irr)) ||| ((mask1 - mask3 - 1) &&& v1)
      elemMulLoop fs irr fuel v' z' (f2 / 2)

/-- `_Element.__mul__` (field multiplication), reading the class attributes
`field_size`/`irr_poly` as `fs`/`irr`. -/
def elemMul (fs irr : Nat) (a b : Nat) : Nat :=
  let p := if b > a then (b, a) else (a, b)
  if irr = p.1 ∨ irr = p.2 then 0
  else elemMulLoop fs irr (p.2 + 1) p.1 0 p.2

/-- Instrumentation for the timing claim: the number of times the body of
`_Element.__mul__`'s `while f2:` loop executes (0 when the early return
`if self.irr_poly in (f1, f2)` fires). -/
def elemMulStepsLoop : Nat → Nat → Nat
  | 0, _ => 0
  | fuel+1, f2 => if f2 = 0 then 0 else elemMulStepsLoop fuel (f2 / 2) + 1

/-- Number of loop iterations `_Element.__mul__` performs on raw operands
`a` and `b` under irreducible-polynomial attribute `irr`. -/
def elemMulSteps (irr : Nat) (a b : Nat) : Nat :=
  let p := if b > a then (b, a) else (a, b)
  if irr = p.1 ∨ irr = p.2 then 0
  else elemMulStepsLoop (p.2 + 1) p.2

/-- Loop body of `_Element.inverse` (extended Euclid on `(value, irr_poly)`):
`while r1 > 0: q = _div_gf2(r0, r1)[0]; r0, r1 = r1, r0 ^ _mult_gf2(q, r1);
s0, s1 = s1, s0 ^ _mult_gf2(q, s1)`; afterwards `s0` is returned.  On the
reachable inputs (`0 < value < 2 ^ field_size`, `r1 = irr_poly`) the loop
runs at most `bit_length value + 2` times, so fuel `irr + 2` suffices. -/
def elemInvLoop : Nat → Nat → Nat → Nat → Nat → Nat
  | 0, _, _, s0, _ => s0
  | fuel+1, r0, r1, s0, s1 =>
    if r1 > 0 then
      let q := (div_gf2 r0 r1).1
      elemInvLoop fuel r1 (r0 ^^^ mult_gf2 q r1) s1 (s0 ^^^ mult_gf2 q s1)
    else s0

/-- `_Element.inverse()`: `ValueError` on zero, else extended Euclid. -/
def elemInverse (irr : Nat) (v : Nat) : Except ShamirErr Nat :=
  if v = 0 then Except.error ShamirErr.inversionOfZero
  else Except.ok (elemInvLoop (irr + 2) v irr 1 0)

/-- `_Element.__pow__`: `result = _Element(value); for _ in range(exponent - 1):
result = result * self`.  `range(exponent - 1)` is empty for exponents `0`
and `1` (Python `range(-1)` is empty, matching `Nat` subtraction). -/
def elemPowLoop (fs irr a : Nat) : Nat → Nat → Nat
  | 0, result => result
  | fuel+1, result => elemPowLoop fs irr a fuel (elemMul fs irr result a)

/-- `_Element.__pow__(exponent)` on the element with raw value `a`. -/
def elemPow (fs irr : Nat) (a : Nat) (exponent : Nat) : Nat :=
  elemPowLoop fs irr a (exponent - 1) a

/-- `PBKDF2_ROUNDS = const(2048)`. -/
def PBKDF2_ROUNDS : Nat := 2048

/-- `mnemonic_to_shares(mnemonic, nb_shares)` (with the default, non-`None`
wordlist): the secret's bytes in the last position, and for
`i in range(nb_shares - 1)` the PBKDF2-HMAC-SHA512 output with password the
mnemonic text and salt `"mnemonic" + "shamir" + str(i) +
" number of shares " + str(nb_shares)`, of the secret's byte length.
(`nb_shares ≥ 1`; at `0` Python raises `IndexError`.) -/
def mnemonic_to_shares (mtb : String → List Nat)
    (pbkdf2 : String → String → Nat → Nat → List Nat)
    (mnemonic : String) (nb_shares : Nat) : List (List Nat) :=
  (List.range (nb_shares - 1)).map (fun i =>
    pbkdf2 mnemonic
      ("mnemonic" ++ ("shamir" ++ toString i ++ " number of shares " ++ toString nb_shares))
      PBKDF2_ROUNDS (mtb mnemonic).length)
  ++ [mtb mnemonic]

/-- `make_share(user, coeffs)` (local to `Shamir.split`): Horner evaluation
`share = idx * share + coeff` over the coefficient list, then encode and
re-express through the mnemonic codec. -/
def make_share (mfb : List Nat → String) (fs irr : Nat)
    (user : Nat) (coeffs : List Nat) : String :=
  mfb (elemEncode fs (coeffs.foldl (fun share coeff =>
    elemAdd (elemMul fs irr user share) coeff) 0))

/-- The coefficient construction `[_Element(coeffs_bytes[i]) for i in range(k)]`
of `Shamir.split`: each byte string passes through `_Element.__init__`'s
width check, the first failure aborting the comprehension.  (The list
produced by `mnemonic_to_shares` has exactly `k` entries for `k ≥ 1`, so
iterating the list itself is iterating `range(k)`.) -/
def elemsOf (fs : Nat) : List (List Nat) → Except ShamirErr (List Nat)
  | [] => Except.ok []
  | bs :: rest =>
    match elemOfBytes fs bs with
    | Except.error e => Except.error e
    | Except.ok v =>
      match elemsOf fs rest with
      | Except.error e => Except.error e
      | Except.ok vs => Except.ok (v :: vs)

/-- `Shamir.split(k, n, secret)` as a transformer of the class-level state,
returning the posterior state together with the result.
Field size is `8 × (decoded byte length)`; `set_field_size` runs before the
coefficients are derived, and each derived byte string passes through
`_Element.__init__`'s width check. -/
def splitSt (mtb : String → List Nat) (mfb : List Nat → String)
    (pbkdf2 : String → String → Nat → Nat → List Nat)
    (k n : Nat) (secret : String) (st : PyState) :
    PyState × Except ShamirErr (List (Nat × String)) :=
  let secret_bytes := mtb secret
  let field_size := secret_bytes.length * 8
  match set_field_size field_size st with
  | (st', Except.error e) => (st', Except.error e)
  | (st', Except.ok _) =>
    let irr := (irr_poly_table field_size).getD 0
    let coeffs_bytes := mnemonic_to_shares mtb pbkdf2 secret k
    match elemsOf field_size coeffs_bytes with
    | Except.error e => (st', Except.error e)
    | Except.ok coeffs =>
      (st', Except.ok ((List.range n).map (fun i =>
        (i + 1, make_share mfb field_size irr (i + 1) coeffs))))

/-- `Shamir.split` observed through its return value alone. -/
def split (mtb : String → List Nat) (mfb : List Nat → String)
    (pbkdf2 : String → String → Nat → Nat → List Nat)
    (k n : Nat) (secret : String) : Except ShamirErr (List (Nat × String)) :=
  (splitSt mtb mfb pbkdf2 k n secret ⟨none, none⟩).2

/-- The share-collection loop of `Shamir.combine`: wrap each decoded pair in
field elements (the byte string passes the width check), raising
`ValueError("Duplicate share")` when an index equals one already collected. -/
def combineCollect (fs : Nat) :
    List (Nat × List Nat) → List (Nat × Nat) → Except ShamirErr (List (Nat × Nat))
  | [], acc => Except.ok acc
  | (i, bs) :: rest, acc =>
    match elemOfBytes fs bs with
    | Except.error e => Except.error e
    | Except.ok value =>
      if acc.any (fun y => y.1 = i) then Except.error ShamirErr.duplicateShare
      else combineCollect fs rest (acc ++ [(i, value)])

/-- The two products of the inner `for m in range(k)` loop of `combine`, for
a fixed `j`: `numerator *= x_m` and `denominator *= x_j + x_m` over all
`m ≠ j`, in index order. -/
def combineProducts (fs irr : Nat) (gf_shares : List (Nat × Nat)) (j : Nat) : Nat × Nat :=
  (List.range gf_shares.length).foldl (fun acc m =>
    if m = j then acc
    else
      let x_m := (gf_shares.getD m (0, 0)).1
      let x_j := (gf_shares.getD j (0, 0)).1
      (elemMul fs irr acc.1 x_m, elemMul fs irr acc.2 (elemAdd x_j x_m)))
    (1, 1)

/-- The accumulation loop of `combine`, iterating `j` over the remaining
indices: `result += y_j * numerator * denominator.inverse()`; the first
`inverse` failure aborts the call. -/
def combineSumAux (fs irr : Nat) (gf_shares : List (Nat × Nat)) :
    List Nat → Nat → Except ShamirErr Nat
  | [], result => Except.ok result
  | j :: rest, result =>
    let y_j := (gf_shares.getD j (0, 0)).2
    let p := combineProducts fs irr gf_shares j
    match elemInverse irr p.2 with
    | Except.error e => Except.error e
    | Except.ok inv =>
      combineSumAux fs irr gf_shares rest
        (elemAdd result (elemMul fs irr (elemMul fs irr y_j p.1) inv))

/-- The `for j in range(k)` accumulation loop of `combine`. -/
def combineSum (fs irr : Nat) (gf_shares : List (Nat × Nat)) : Except ShamirErr Nat :=
  combineSumAux fs irr gf_shares (List.range gf_shares.length) 0

/-- `Shamir.combine(shares, wordlist)`: decode every payload, set the field
size from the first decoded payload, collect the shares (duplicate-index
check), then Lagrange-interpolate at zero over all supplied shares.
(The codec with its wordlist is the parameter `mtb`/`mfb`; `shares[0]` on an
empty list is Python's `IndexError`.) -/
def combine (mtb : String → List Nat) (mfb : List Nat → String)
    (shares : List (Nat × String)) : Except ShamirErr String :=
  let decoded := shares.map (fun val => (val.1, mtb val.2))
  match decoded with
  | [] => Except.error ShamirErr.emptyShares
  | first :: _ =>
    let fs := first.2.length * 8
    match irr_poly_table fs with
    | none => Except.error ShamirErr.unsupportedFieldSize
    | some irr =>
      match combineCollect fs decoded [] with
      | Except.error e => Except.error e
      | Except.ok gf_shares =>
        match combineSum fs irr gf_shares with
        | Except.error e => Except.error e
        | Except.ok result => Except.ok (mfb (elemEncode fs result))

/-- The specification's Horner rule, as worded: "starting from an
accumulator of zero, for each coefficient in order the accumulator becomes
accumulator times i plus that coefficient". -/
def hornerEvalSpec (fs irr : Nat) (coeffs : List Nat) (i : Nat) : Nat :=
  coeffs.foldl (fun acc c => elemAdd (elemMul fs irr acc i) c) 0

/-- The derived coefficient values of a `split` call: the byte strings of
`mnemonic_to_shares`, read as field elements. -/
def derivedCoeffs (mtb : String → List Nat)
    (pbkdf2 : String → String → Nat → Nat → List Nat)
    (secret : String) (k : Nat) : List Nat :=
  (mnemonic_to_shares mtb pbkdf2 secret k).map bytesToNat

-- Concrete parameter instances used by witnesses and counterexamples.

/-- A concrete mnemonic codec for witnesses: a byte string is rendered as
the string of its bytes as characters, and decoded back bytewise. -/
def mfbChar (bs : List Nat) : String := String.mk (bs.map Char.ofNat)

/-- Decoder matching `mfbChar` (on byte strings, i.e. entries `< 256`). -/
def mtbChar (s : String) : List Nat := s.data.map Char.toNat

/-- All-zero PBKDF2 stand-in (password, salt, rounds, dklen ↦ dklen zeros). -/
def pbkdf2Z (_pw _salt : String) (_rounds dklen : Nat) : List Nat :=
  List.replicate dklen 0

/-- A 15-byte decoder: every mnemonic decodes to fifteen zero bytes
(unsupported field size 120). -/
def mtb15 (_s : String) : List Nat := List.replicate 15 0

/-- A 16-byte decoder: every mnemonic decodes to sixteen zero bytes
(field size 128). -/
def mtb16 (_s : String) : List Nat := List.replicate 16 0

/-- The polynomial over GF(2) whose coefficient of `X^i` is bit `i` of `n`
(the interpretation both the source comments and the specification give to
a field-element integer).  Proof-layer abstraction, not part of the
embedding. -/
noncomputable def toPoly (n : Nat) : Polynomial (ZMod 2) :=
  if h : n = 0 then 0
  else Polynomial.C ((n % 2 : Nat) : ZMod 2) + Polynomial.X * toPoly (n / 2)
decreasing_by exact Nat.div_lt_self (Nat.pos_of_ne_zero h) one_lt_two

/-- The interpretation of a raw element value in the field
`GF(2)[x]/(irr_poly)` (proof-layer abstraction). -/
noncomputable def phiF (irr : Nat) (x : Nat) : AdjoinRoot (toPoly irr) :=
  AdjoinRoot.mk (toPoly irr) (toPoly x)

/-- The polynomial over `GF(2^m)` determined by a coefficient list in
Horner order (highest coefficient first), as the source's `make_share`
reads it (proof-layer abstraction). -/
noncomputable def hornerPoly (irr : Nat) (coeffs : List Nat) :
    Polynomial (AdjoinRoot (toPoly irr)) :=
  coeffs.foldl (fun q cc => q * Polynomial.X + Polynomial.C (phiF irr cc)) 0

/-! ### Sparse-reduction machinery used by the irreducibility certificates
(proof infrastructure; `redStep` folds the bits above position `m` back onto
the tail, which is a congruence modulo `1 + X^a + X^b + X^c + X^m`). -/

/-- One folding step modulo the sparse polynomial `1 + X^a + X^b + X^c + X^m`:
the part of `x` above bit `m` is xored back at offsets `0`, `a`, `b`, `c`. -/
def redStep (m a b c x : Nat) : Nat :=
  (x &&& (2 ^ m - 1)) ^^^ (x >>> m) ^^^ ((x >>> m) <<< a) ^^^ ((x >>> m) <<< b) ^^^
    ((x >>> m) <<< c)

/-- Iterated folding, with fuel, stopping once the value fits in `m` bits. -/
def redLoop (m a b c : Nat) : Nat → Nat → Nat
  | 0, x => x
  | fuel+1, x => if x >>> m = 0 then x else redLoop m a b c fuel (redStep m a b c x)

/-- One modular squaring: `_mult_gf2` of `x` with itself, then folding. -/
def sqStep (m a b c x : Nat) : Nat := redLoop m a b c m (mult_gf2 x x)

/-- `k` modular squarings (the case split on `x = 0` forces each intermediate
value to a numeral before the next step). -/
def sqChain (m a b c : Nat) : Nat → Nat → Nat
  | 0, x => x
  | k+1, x =>
    if x = 0 then sqChain m a b c k (sqStep m a b c 0)
    else sqChain m a b c k (sqStep m a b c x)

/-- The five irreducible polynomials of `_Element.irr_poly_table`, as named
constants. -/
def P128 : Nat := 1 + 2 ^ 11 + 2 ^ 35 + 2 ^ 77 + 2 ^ 128

/-- Table entry for field size 160. -/
def P160 : Nat := 1 + 2 ^ 30 + 2 ^ 56 + 2 ^ 101 + 2 ^ 160

/-- Table entry for field size 192. -/
def P192 : Nat := 1 + 2 ^ 17 + 2 ^ 103 + 2 ^ 142 + 2 ^ 192

/-- Table entry for field size 224. -/
def P224 : Nat := 1 + 4 + 2 ^ 39 + 2 ^ 116 + 2 ^ 224

/-- Table entry for field size 256. -/
def P256 : Nat := 1 + 2 ^ 121 + 2 ^ 178 + 2 ^ 241 + 2 ^ 256

/-- Decidable equality of `Except` results, so that concrete runs of the
embedded functions can be checked by evaluation. -/
instance {ε α : Type} [DecidableEq ε] [DecidableEq α] :
    DecidableEq (Except ε α) := fun x y =>
  match x, y with
  | Except.ok a, Except.ok b =>
      if h : a = b then Decidable.isTrue (by rw [h])
      else Decidable.isFalse (fun hc => h (Except.ok.inj hc))
  | Except.error a, Except.error b =>
      if h : a = b then Decidable.isTrue (by rw [h])
      else Decidable.isFalse (fun hc => h (Except.error.inj hc))
  | Except.ok _, Except.error _ => Decidable.isFalse (fun hc => Except.noConfusion hc)
  | Except.error _, Except.ok _ => Decidable.isFalse (fun hc => Except.noConfusion hc)

/-! ### Bit-length basics -/

theorem bitLenAux_eq_size (fuel n : Nat) (h : n < fuel) : bitLenAux fuel n = Nat.size n := by
  induction fuel generalizing n with
  | zero => omega
  | succ fuel ih =>
    rw [bitLenAux]
    by_cases hn : n = 0
    · simp [hn]
    · have hdiv : n / 2 < fuel := by
        have h2 : n / 2 < n := Nat.div_lt_self (Nat.pos_of_ne_zero hn) one_lt_two
        omega
      rw [if_neg hn, ih _ hdiv]
      conv_rhs => rw [← Nat.bit_decide_mod_two_eq_one_shiftRight_one n]
      rw [Nat.size_bit]
      · rfl
      · rw [Nat.bit_decide_mod_two_eq_one_shiftRight_one n]; exact hn

theorem bitLen_eq_size (n : Nat) : bitLen n = Nat.size n :=
  bitLenAux_eq_size _ _ (Nat.lt_succ_self n)

theorem bitLen_zero : bitLen 0 = 0 := rfl

theorem bitLen_div2 (n : Nat) (hn : n ≠ 0) : bitLen n = bitLen (n / 2) + 1 := by
  rw [bitLen_eq_size, bitLen_eq_size]
  conv_lhs => rw [← Nat.bit_decide_mod_two_eq_one_shiftRight_one n]
  rw [Nat.size_bit]
  · rfl
  · rw [Nat.bit_decide_mod_two_eq_one_shiftRight_one n]; exact hn

theorem bitLen_le (m n : Nat) : bitLen m ≤ n ↔ m < 2 ^ n := by
  rw [bitLen_eq_size]; exact Nat.size_le

theorem lt_two_pow_bitLen (n : Nat) : n < 2 ^ bitLen n := by
  rw [bitLen_eq_size]; exact Nat.lt_size_self n

/-! ### C7: multiplication by the stored irreducible polynomial -/

/-- C7 (confirmed).  If either raw operand integer equals the stored
irreducible-polynomial integer for the active field size, `_Element.__mul__`
returns the zero element. -/
theorem claim_C7 (fs irr a b : Nat) (h : irr = a ∨ irr = b) :
    elemMul fs irr a b = 0 := by
  unfold elemMul
  by_cases hba : b > a <;> simp only [hba, if_true, if_false, reduceIte] <;>
    rcases h with h | h <;> simp [h]

/-- Witness for C7 at field size 128: multiplying the raw integer of the
irreducible polynomial itself by 5 yields zero. -/
theorem claim_C7_witness :
    elemMul 128 (1 + 2^11 + 2^35 + 2^77 + 2^128) (1 + 2^11 + 2^35 + 2^77 + 2^128) 5 = 0 :=
  claim_C7 128 _ _ 5 (Or.inl rfl)

/-! ### C10: exponentiation at exponents 0 and 1 -/

/-- C10 (confirmed).  `_Element.__pow__` runs its repeated-multiplication
loop `exponent - 1` times starting from a copy of the base, so exponent `0`
returns the base itself (not the multiplicative identity), and exponent `1`
does as well. -/
theorem claim_C10 (fs irr a : Nat) :
    elemPow fs irr a 0 = a ∧ elemPow fs irr a 1 = a :=
  ⟨rfl, rfl⟩

/-! ### C9: data-dependent control flow of multiplication -/

theorem elemMulStepsLoop_eq (fuel f2 : Nat) (h : f2 < fuel) :
    elemMulStepsLoop fuel f2 = bitLen f2 := by
  induction fuel generalizing f2 with
  | zero => omega
  | succ fuel ih =>
    rw [elemMulStepsLoop]
    by_cases hz : f2 = 0
    · simp [hz, bitLen_zero]
    · have hdiv : f2 / 2 < fuel := by
        have h2 : f2 / 2 < f2 := Nat.div_lt_self (Nat.pos_of_ne_zero hz) one_lt_two
        omega
      rw [if_neg hz, ih _ hdiv, ← bitLen_div2 _ hz]

/-- C9 counterexample.  The claim asserts that for all operand pairs of the
same field size the sequence of operations performed by `_Element.__mul__`
does not depend on the operand values; but with the field size 128
configuration, the loop body runs once on operands `(1, 1)` and twice on
operands `(3, 3)`. -/
theorem claim_C9_counterexample :
    elemMulSteps (1 + 2^11 + 2^35 + 2^77 + 2^128) 1 1 ≠
      elemMulSteps (1 + 2^11 + 2^35 + 2^77 + 2^128) 3 3 := by decide

/-- C9 (corrected).  The accumulation and reduction steps inside each loop
iteration of `_Element.__mul__` are branchless masked selects, but the
control flow is not operand-independent: whenever neither raw operand
equals the irreducible polynomial, the number of iterations of the
`while f2:` loop equals the bit length of the numerically smaller operand
(and the comparison-and-swap and the early-return test also branch on the
operands). -/
theorem claim_C9 (irr a b : Nat) (ha : irr ≠ a) (hb : irr ≠ b) :
    elemMulSteps irr a b = bitLen (min a b) := by
  unfold elemMulSteps
  by_cases hba : b > a
  · simp only [hba, if_true, reduceIte]
    have : ¬ (irr = b ∨ irr = a) := by tauto
    simp only [this, if_false, reduceIte]
    rw [elemMulStepsLoop_eq _ _ (Nat.lt_succ_self _)]
    congr 1
    omega
  · simp only [hba, if_false, reduceIte]
    have : ¬ (irr = a ∨ irr = b) := by tauto
    simp only [this, if_false, reduceIte]
    rw [elemMulStepsLoop_eq _ _ (Nat.lt_succ_self _)]
    congr 1
    omega

/-- Witness for the corrected C9 at field size 128, operands `(3, 3)`. -/
theorem claim_C9_witness :
    elemMulSteps (1 + 2^11 + 2^35 + 2^77 + 2^128) 3 3 = bitLen (min 3 3) :=
  claim_C9 _ 3 3 (by decide) (by decide)

/-! ### C6: unsupported secret sizes -/

theorem irr_poly_table_eq_none (fs : Nat)
    (h : fs ∉ ([128, 160, 192, 224, 256] : List Nat)) : irr_poly_table fs = none := by
  simp only [List.mem_cons, List.not_mem_nil, or_false, not_or] at h
  obtain ⟨h1, h2, h3, h4, h5⟩ := h
  simp [irr_poly_table, h1, h2, h3, h4, h5]

/-- C6 (confirmed).  When the decoded secret's byte length times 8 is not
one of the five supported field sizes, `Shamir.split` fails with the
unsupported-field-size error (the `KeyError` of the `irr_poly_table`
lookup) and produces no shares; the failure happens before any coefficient
is derived. -/
theorem claim_C6 (mtb : String → List Nat) (mfb : List Nat → String)
    (pbkdf2 : String → String → Nat → Nat → List Nat) (k n : Nat) (secret : String)
    (h : (mtb secret).length * 8 ∉ ([128, 160, 192, 224, 256] : List Nat)) :
    split mtb mfb pbkdf2 k n secret = Except.error ShamirErr.unsupportedFieldSize := by
  have htab := irr_poly_table_eq_none _ h
  simp [split, splitSt, set_field_size, htab]

/-- Witness for C6: a secret decoding to 15 bytes (120 bits). -/
theorem claim_C6_witness :
    split mtb15 mfbChar pbkdf2Z 2 3 "any mnemonic" = Except.error ShamirErr.unsupportedFieldSize :=
  claim_C6 mtb15 mfbChar pbkdf2Z 2 3 "any mnemonic" (by decide)

/-! ### C8: split mutates the class-level field configuration -/

/-- C8 counterexample.  The claim asserts `split` leaves all state outside
the returned share list — in particular the class-level configuration —
unchanged; but with the configuration previously set for field size 256,
splitting a 16-byte secret reconfigures it to field size 128. -/
theorem claim_C8_counterexample :
    (splitSt mtb16 mfbChar pbkdf2Z 2 3 "x"
        ⟨some 256, some (1 + 2^121 + 2^178 + 2^241 + 2^256)⟩).1 ≠
      ⟨some 256, some (1 + 2^121 + 2^178 + 2^241 + 2^256)⟩ := by
  decide

/-- C8 (corrected).  `Shamir.split` is deterministic in its result but not
free of side effects: its one side effect is on the class-level field
configuration, whose posterior value is fully determined by the secret —
`field_size` is always assigned `8 × (decoded byte length)`, and `irr_poly`
is assigned the matching table entry exactly when that size is supported
(on an unsupported size the `KeyError` leaves `irr_poly` at its prior
value).  The prior configuration is preserved only when it already equals
this posterior. -/
theorem claim_C8 (mtb : String → List Nat) (mfb : List Nat → String)
    (pbkdf2 : String → String → Nat → Nat → List Nat) (k n : Nat) (secret : String)
    (st : PyState) :
    (splitSt mtb mfb pbkdf2 k n secret st).1 =
      match irr_poly_table ((mtb secret).length * 8) with
      | some p => ⟨some ((mtb secret).length * 8), some p⟩
      | none => ⟨some ((mtb secret).length * 8), st.irr_poly⟩ := by
  unfold splitSt set_field_size
  cases htab : irr_poly_table ((mtb secret).length * 8) with
  | none => simp [htab]
  | some p =>
    simp only [htab]
    cases hco : elemsOf ((mtb secret).length * 8) (mnemonic_to_shares mtb pbkdf2 secret k) <;>
      simp [hco]

/-! ### C5: duplicate-share detection -/

theorem combineCollect_dup_iff (fs : Nat) :
    ∀ (rest : List (Nat × List Nat)) (acc : List (Nat × Nat)),
      (∀ p ∈ rest, (p.2).length = fs / 8) →
      (acc.map Prod.fst).Nodup →
      (combineCollect fs rest acc = Except.error ShamirErr.duplicateShare ↔
        ¬ (acc.map Prod.fst ++ rest.map Prod.fst).Nodup) := by
  intro rest
  induction rest with
  | nil =>
    intro acc _ hacc
    simp [combineCollect, hacc]
  | cons p rest ih =>
    intro acc hlen hacc
    obtain ⟨i, bs⟩ := p
    have hbs : bs.length = fs / 8 := hlen (i, bs) (List.mem_cons_self _ _)
    rw [combineCollect]
    simp only [elemOfBytes, if_pos hbs]
    cases hany : acc.any (fun y => y.1 = i) with
    | true =>
      rw [if_pos rfl]
      have hmem : i ∈ acc.map Prod.fst := by
        obtain ⟨y, hy, hyi⟩ := List.any_eq_true.mp hany
        exact List.mem_map.mpr ⟨y, hy, of_decide_eq_true hyi⟩
      have hnot : ¬ (acc.map Prod.fst ++ ((i, bs) :: rest).map Prod.fst).Nodup := by
        intro hnd
        exact (List.nodup_append.mp hnd).2.2 hmem (by simp)
      simp only [List.map_cons] at hnot
      simp [hnot]
    | false =>
      rw [if_neg (by simp [hany])]
      have hnotin : i ∉ acc.map Prod.fst := by
        intro hc
        obtain ⟨y, hy, hyi⟩ := List.mem_map.mp hc
        have := List.any_eq_false.mp hany y hy
        simp [hyi] at this
      have hacc' : ((acc ++ [(i, bytesToNat bs)]).map Prod.fst).Nodup := by
        rw [List.map_append]
        refine List.Nodup.append hacc (by simp) ?_
        intro a ha hb
        rw [List.map_singleton, List.mem_singleton] at hb
        simp only [] at hb
        subst hb
        exact hnotin ha
      rw [ih _ (fun q hq => hlen q (List.mem_cons_of_mem _ hq)) hacc']
      rw [List.map_append, List.append_assoc, List.map_singleton]
      simp

theorem combineCollect_ne_dup (fs : Nat) :
    ∀ (rest : List (Nat × List Nat)) (acc : List (Nat × Nat)),
      (acc.map Prod.fst ++ rest.map Prod.fst).Nodup →
      combineCollect fs rest acc ≠ Except.error ShamirErr.duplicateShare := by
  intro rest
  induction rest with
  | nil =>
    intro acc _
    simp [combineCollect]
  | cons p rest ih =>
    intro acc hnd
    obtain ⟨i, bs⟩ := p
    rw [combineCollect]
    by_cases hl : bs.length = fs / 8
    · simp only [elemOfBytes, if_pos hl]
      have hnotin : i ∉ acc.map Prod.fst := by
        intro hc
        refine (List.nodup_append.mp hnd).2.2 hc ?_
        simp
      have hany : acc.any (fun y => y.1 = i) = false := by
        rw [List.any_eq_false]
        intro y hy
        simp only [decide_eq_true_eq]
        intro hyi
        exact hnotin (List.mem_map.mpr ⟨y, hy, hyi⟩)
      rw [if_neg (by simp [hany])]
      apply ih
      rw [List.map_append, List.append_assoc, List.map_singleton]
      simpa using hnd
    · simp only [elemOfBytes, if_neg hl]
      intro hc
      have := Except.error.inj hc
      simp at this

theorem combineSumAux_ne_dup (fs irr : Nat) (gf_shares : List (Nat × Nat)) :
    ∀ (js : List Nat) (r : Nat),
      combineSumAux fs irr gf_shares js r ≠ Except.error ShamirErr.duplicateShare := by
  intro js
  induction js with
  | nil => intro r; simp [combineSumAux]
  | cons j rest ih =>
    intro r
    rw [combineSumAux]
    by_cases hz : (combineProducts fs irr gf_shares j).2 = 0
    · simp only [elemInverse, if_pos hz]
      intro hc
      have := Except.error.inj hc
      simp at this
    · simp only [elemInverse, if_neg hz]
      exact ih _

/-- C5 (corrected).  Provided every payload decodes to byte strings of the
single length implied by the first share and that length is a supported
field width, `combine` raises the duplicate-share error exactly when two
entries carry the same index — during the share-collection phase, before
any interpolation arithmetic runs.  With pairwise-distinct indices the
duplicate-share error is never raised, whatever the payloads.  Without the
payload proviso the claim as stated fails: a wrong-width or unsupported
payload makes `combine` raise a different error first even when two
entries share an index (see the counterexample). -/
theorem claim_C5 (mtb : String → List Nat) (mfb : List Nat → String)
    (shares : List (Nat × String)) :
    ((∀ L, (∀ p ∈ shares, (mtb p.2).length = L) → irr_poly_table (L * 8) ≠ none →
      ¬ (shares.map Prod.fst).Nodup →
      combine mtb mfb shares = Except.error ShamirErr.duplicateShare)
    ∧ ((shares.map Prod.fst).Nodup →
      combine mtb mfb shares ≠ Except.error ShamirErr.duplicateShare)) := by
  constructor
  · intro L hlen hsup hdup
    cases hsh : shares with
    | nil => rw [hsh] at hdup; simp at hdup
    | cons first rest =>
      subst hsh
      unfold combine
      have hfst : (mtb first.2).length = L := hlen first (List.mem_cons_self _ _)
      simp only [List.map_cons, hfst]
      cases htab : irr_poly_table (L * 8) with
      | none => exact absurd htab hsup
      | some irr =>
        simp only []
        have hlens : ∀ p ∈ ((first :: rest).map (fun val => (val.1, mtb val.2))),
            (p.2 : List Nat).length = L * 8 / 8 := by
          intro p hp
          obtain ⟨q, hq, rfl⟩ := List.mem_map.mp hp
          have := hlen q hq
          simp [this, Nat.mul_div_cancel_left]
        have hcoll := combineCollect_dup_iff (L * 8)
          ((first :: rest).map (fun val => (val.1, mtb val.2))) [] hlens (by simp)
        have hfsteq : ((first :: rest).map (fun val => (val.1, mtb val.2))).map Prod.fst =
            (first :: rest).map Prod.fst := by
          rw [List.map_map]; rfl
        rw [List.map_nil, List.nil_append, hfsteq] at hcoll
        have herr : combineCollect (L * 8)
            ((first :: rest).map (fun val => (val.1, mtb val.2))) [] =
            Except.error ShamirErr.duplicateShare := hcoll.mpr hdup
        simp only [List.map_cons] at herr
        rw [herr]
  · intro hnd
    unfold combine
    cases hsh : shares with
    | nil => simp
    | cons first rest =>
      subst hsh
      simp only [List.map_cons]
      cases htab : irr_poly_table ((mtb first.2).length * 8) with
      | none => simp
      | some irr =>
        simp only []
        have hfsteq : ((first :: rest).map (fun val => (val.1, mtb val.2))).map Prod.fst =
            (first :: rest).map Prod.fst := by
          rw [List.map_map]; rfl
        have hcoll := combineCollect_ne_dup ((mtb first.2).length * 8)
          ((first :: rest).map (fun val => (val.1, mtb val.2))) []
          (by rw [List.map_nil, List.nil_append, hfsteq]; exact hnd)
        simp only [List.map_cons] at hcoll
        intro hcon
        split at hcon
        next e heq =>
          rw [Except.error.inj hcon] at heq
          exact hcoll heq
        next gf heq =>
          split at hcon
          next e2 heq2 =>
            rw [Except.error.inj hcon] at heq2
            rw [combineSum] at heq2
            exact combineSumAux_ne_dup ((mtb first.2).length * 8) irr gf
              (List.range gf.length) 0 heq2
          next result heq2 =>
            exact Except.noConfusion hcon

/-- C5 counterexample.  Both entries carry index 1, yet `combine` raises
the unsupported-field-size error (the payloads decode to 15 bytes), not
the duplicate-share error. -/
theorem claim_C5_counterexample :
    combine mtb15 mfbChar [(1, "x"), (1, "x")] = Except.error ShamirErr.unsupportedFieldSize ∧
      Except.error ShamirErr.unsupportedFieldSize ≠
        (Except.error ShamirErr.duplicateShare : Except ShamirErr String) := by
  constructor
  · rfl
  · intro h
    have := Except.error.inj h
    simp at this

/-- Witness for the corrected C5: two 16-byte-payload shares with equal
indices are rejected with the duplicate-share error. -/
theorem claim_C5_witness :
    combine mtb16 mfbChar [(1, "a"), (1, "b")] = Except.error ShamirErr.duplicateShare :=
  (claim_C5 mtb16 mfbChar [(1, "a"), (1, "b")]).1 16 (fun p _ => rfl) (by decide) (by decide)

/-! ### C2: structure of the split output -/

theorem elemMul_comm (fs irr a b : Nat) : elemMul fs irr a b = elemMul fs irr b a := by
  rcases Nat.lt_trichotomy a b with h | h | h
  · unfold elemMul
    simp only [gt_iff_lt, if_pos h, if_neg (lt_asymm h)]
  · subst h; rfl
  · unfold elemMul
    simp only [gt_iff_lt, if_neg (lt_asymm h), if_pos h]

theorem elemsOf_ok (fs : Nat) :
    ∀ (l : List (List Nat)), (∀ bs ∈ l, bs.length = fs / 8) →
      elemsOf fs l = Except.ok (l.map bytesToNat) := by
  intro l
  induction l with
  | nil => intro _; rfl
  | cons bs rest ih =>
    intro h
    rw [elemsOf]
    simp only [elemOfBytes, if_pos (h bs (List.mem_cons_self _ _)),
      ih (fun q hq => h q (List.mem_cons_of_mem _ hq))]
    rfl

theorem mnemonic_to_shares_length (mtb : String → List Nat)
    (pbkdf2 : String → String → Nat → Nat → List Nat) (secret : String) (k : Nat) :
    (mnemonic_to_shares mtb pbkdf2 secret k).length = (k - 1) + 1 := by
  simp [mnemonic_to_shares]

theorem make_share_eq_horner (mfb : List Nat → String) (fs irr user : Nat)
    (coeffs : List Nat) :
    make_share mfb fs irr user coeffs =
      mfb (elemEncode fs (hornerEvalSpec fs irr coeffs user)) := by
  unfold make_share hornerEvalSpec
  have : ∀ (l : List Nat) (acc : Nat),
      l.foldl (fun share coeff => elemAdd (elemMul fs irr user share) coeff) acc =
      l.foldl (fun acc c => elemAdd (elemMul fs irr acc user) c) acc := by
    intro l
    induction l with
    | nil => intro acc; rfl
    | cons c rest ih =>
      intro acc
      simp only [List.foldl_cons]
      rw [elemMul_comm fs irr user acc]
      exact ih _
  rw [this]

/-- C2 (confirmed).  For valid `k ≤ n` (with `2 ≤ k`), a supported-size
secret and a PBKDF2 returning outputs of the requested length,
`Shamir.split` succeeds and returns exactly `n` pairs, the `j`-th pair
being index `j+1` together with the encoding of the Horner-rule evaluation
(accumulator starts at zero; for each coefficient in order it becomes
accumulator times the index plus that coefficient) of the `k` derived
coefficients at field element `j+1`. -/
theorem claim_C2 (mtb : String → List Nat) (mfb : List Nat → String)
    (pbkdf2 : String → String → Nat → Nat → List Nat) (k n : Nat) (secret : String)
    (irr : Nat) (htab : irr_poly_table ((mtb secret).length * 8) = some irr)
    (hpb : ∀ pw salt r d, (pbkdf2 pw salt r d).length = d)
    (hk : 2 ≤ k) (hkn : k ≤ n) :
    ∃ out, split mtb mfb pbkdf2 k n secret = Except.ok out ∧
      out.length = n ∧
      (derivedCoeffs mtb pbkdf2 secret k).length = k ∧
      ∀ j, j < n → out.getD j (0, "") =
        (j + 1, mfb (elemEncode ((mtb secret).length * 8)
          (hornerEvalSpec ((mtb secret).length * 8) irr
            (derivedCoeffs mtb pbkdf2 secret k) (j + 1)))) := by
  have hL : ((mtb secret).length * 8) / 8 = (mtb secret).length :=
    Nat.mul_div_cancel _ (by omega)
  have hlens : ∀ bs ∈ mnemonic_to_shares mtb pbkdf2 secret k,
      bs.length = ((mtb secret).length * 8) / 8 := by
    intro bs hbs
    rw [hL]
    unfold mnemonic_to_shares at hbs
    rcases List.mem_append.mp hbs with h | h
    · obtain ⟨i, _, rfl⟩ := List.mem_map.mp h
      exact hpb _ _ _ _
    · rw [List.mem_singleton.mp h]
  refine ⟨(List.range n).map (fun i =>
    (i + 1, make_share mfb ((mtb secret).length * 8) irr (i + 1)
      (derivedCoeffs mtb pbkdf2 secret k))), ?_, ?_, ?_, ?_⟩
  · unfold split splitSt
    simp only [set_field_size, htab, Option.getD_some, elemsOf_ok _ _ hlens]
    rfl
  · simp
  · unfold derivedCoeffs
    rw [List.length_map, mnemonic_to_shares_length]
    omega
  · intro j hj
    rw [List.getD_eq_getElem _ _ (by simpa using hj)]
    simp only [List.getElem_map, List.getElem_range]
    rw [make_share_eq_horner]

/-- Witness for C2 at field size 128, `k = 2`, `n = 3`. -/
theorem claim_C2_witness :
    ∃ out, split mtb16 mfbChar pbkdf2Z 2 3 "s" = Except.ok out ∧
      out.length = 3 ∧
      (derivedCoeffs mtb16 pbkdf2Z "s" 2).length = 2 ∧
      ∀ j, j < 3 → out.getD j (0, "") =
        (j + 1, mfbChar (elemEncode ((mtb16 "s").length * 8)
          (hornerEvalSpec ((mtb16 "s").length * 8) (1 + 2^11 + 2^35 + 2^77 + 2^128)
            (derivedCoeffs mtb16 pbkdf2Z "s" 2) (j + 1)))) :=
  claim_C2 mtb16 mfbChar pbkdf2Z 2 3 "s" _ (by rfl)
    (fun _ _ _ d => by simp [pbkdf2Z]) (by omega) (by omega)

/-! ### The `toPoly` transfer to GF(2)[x] -/

open Polynomial in
theorem toPoly_zero : toPoly 0 = 0 := by rw [toPoly]; rfl

open Polynomial in
theorem toPoly_decomp (n : Nat) :
    toPoly n = C ((n % 2 : Nat) : ZMod 2) + X * toPoly (n / 2) := by
  by_cases h : n = 0
  · subst h; rw [toPoly]; simp [toPoly_zero]
  · rw [toPoly]; simp [h]

open Polynomial in
theorem toPoly_coeff (n i : Nat) :
    (toPoly n).coeff i = if n.testBit i then 1 else 0 := by
  induction n using Nat.strong_induction_on generalizing i with
  | _ n ih =>
    by_cases h : n = 0
    · subst h; simp [toPoly_zero, Nat.zero_testBit]
    · rw [toPoly_decomp]
      cases i with
      | zero =>
        rw [Nat.testBit_zero]
        simp only [coeff_add, coeff_C_zero, mul_coeff_zero, coeff_X_zero, zero_mul, add_zero]
        rcases Nat.mod_two_eq_zero_or_one n with h2 | h2 <;> simp [h2]
      | succ j =>
        have hdiv : n / 2 < n := Nat.div_lt_self (Nat.pos_of_ne_zero h) one_lt_two
        rw [Nat.testBit_succ]
        simp only [coeff_add, coeff_C_succ, coeff_X_mul, zero_add]
        exact ih _ hdiv j

theorem ite_one_zero_inj {b c : Bool}
    (h : (if b then (1 : ZMod 2) else 0) = if c then 1 else 0) : b = c := by
  cases b <;> cases c <;> first | rfl | (exfalso; revert h; decide)

open Polynomial in
theorem toPoly_inj {m n : Nat} (h : toPoly m = toPoly n) : m = n := by
  apply Nat.eq_of_testBit_eq
  intro i
  have hc : (toPoly m).coeff i = (toPoly n).coeff i := by rw [h]
  rw [toPoly_coeff, toPoly_coeff] at hc
  exact ite_one_zero_inj hc

open Polynomial in
theorem toPoly_xor (a b : Nat) : toPoly (a ^^^ b) = toPoly a + toPoly b := by
  apply Polynomial.ext
  intro i
  simp only [toPoly_coeff, coeff_add, Nat.testBit_xor]
  cases ha : a.testBit i <;> cases hb : b.testBit i <;> simp <;> decide

open Polynomial in
theorem toPoly_one : toPoly 1 = 1 := by
  rw [toPoly_decomp]
  norm_num [toPoly_zero]

open Polynomial in
theorem toPoly_two : toPoly 2 = X := by
  rw [toPoly_decomp]
  norm_num [toPoly_one]

open Polynomial in
theorem toPoly_two_mul (n : Nat) : toPoly (2 * n) = X * toPoly n := by
  by_cases h : n = 0
  · subst h; simp [toPoly_zero]
  · rw [toPoly_decomp (2 * n)]
    simp [Nat.mul_div_cancel_left, Nat.mul_mod_right]

open Polynomial in
theorem toPoly_shiftLeft (a k : Nat) : toPoly (a <<< k) = X ^ k * toPoly a := by
  induction k with
  | zero => simp [Nat.shiftLeft_eq]
  | succ k ih =>
    have : a <<< (k + 1) = 2 * (a <<< k) := by
      rw [Nat.shiftLeft_eq, Nat.shiftLeft_eq, pow_succ]
      ring
    rw [this, toPoly_two_mul, ih, pow_succ]
    ring

open Polynomial in
theorem toPoly_eq_zero_iff (n : Nat) : toPoly n = 0 ↔ n = 0 := by
  constructor
  · intro h
    exact toPoly_inj (h.trans toPoly_zero.symm)
  · intro h; subst h; exact toPoly_zero

open Polynomial in
theorem toPoly_degree_lt (a k : Nat) (h : a < 2 ^ k) : (toPoly a).degree < k := by
  rw [Polynomial.degree_lt_iff_coeff_zero]
  intro m hm
  rw [toPoly_coeff]
  have : a.testBit m = false := by
    apply Nat.testBit_lt_two_pow
    calc a < 2 ^ k := h
    _ ≤ 2 ^ m := Nat.pow_le_pow_right (by omega) (by exact_mod_cast hm)
  simp [this]

theorem testBit_size_pred (n : Nat) (hn : n ≠ 0) :
    n.testBit (Nat.size n - 1) = true := by
  have hs : 0 < Nat.size n := Nat.size_pos.mpr (Nat.pos_of_ne_zero hn)
  have h1 : 2 ^ (Nat.size n - 1) ≤ n := Nat.lt_size.mp (by omega)
  have h2 : n < 2 ^ Nat.size n := Nat.lt_size_self n
  rw [Nat.testBit_to_div_mod]
  have hdiv : n / 2 ^ (Nat.size n - 1) = 1 := by
    apply Nat.div_eq_of_lt_le
    · simpa using h1
    · have : 2 ^ Nat.size n = 2 * 2 ^ (Nat.size n - 1) := by
        rw [← pow_succ']
        congr 1
        omega
      omega
  simp [hdiv]

open Polynomial in
theorem toPoly_natDegree (n : Nat) (hn : n ≠ 0) :
    (toPoly n).natDegree = Nat.size n - 1 := by
  apply le_antisymm
  · have hd := toPoly_degree_lt n (Nat.size n) (Nat.lt_size_self n)
    have hne : toPoly n ≠ 0 := by rw [Ne, toPoly_eq_zero_iff]; exact hn
    have hlt : (toPoly n).natDegree < Nat.size n :=
      (Polynomial.natDegree_lt_iff_degree_lt hne).mpr hd
    omega
  · apply Polynomial.le_natDegree_of_ne_zero
    rw [toPoly_coeff, testBit_size_pred n hn]
    simp

open Polynomial in
theorem toPoly_monic (n : Nat) (hn : n ≠ 0) : (toPoly n).Monic := by
  unfold Polynomial.Monic Polynomial.leadingCoeff
  rw [toPoly_natDegree n hn, toPoly_coeff, testBit_size_pred n hn]
  simp

open Polynomial in
theorem toPoly_degree_eq (n : Nat) (hn : n ≠ 0) :
    (toPoly n).degree = ((Nat.size n - 1 : Nat) : WithBot ℕ) := by
  rw [Polynomial.degree_eq_natDegree (by rw [Ne, toPoly_eq_zero_iff]; exact hn),
    toPoly_natDegree n hn]

open Polynomial in
theorem multGf2Loop_spec : ∀ (fuel f1 f2 z : Nat), f2 < fuel →
    toPoly (multGf2Loop fuel f1 f2 z) = toPoly z + toPoly f1 * toPoly f2 := by
  intro fuel
  induction fuel with
  | zero => omega
  | succ fuel ih =>
    intro f1 f2 z hf
    rw [multGf2Loop]
    by_cases h0 : f2 = 0
    · simp [h0, toPoly_zero]
    · rw [if_neg h0]
      have hlt : f2 / 2 < fuel := by
        have : f2 / 2 < f2 := Nat.div_lt_self (Nat.pos_of_ne_zero h0) one_lt_two
        omega
      rw [ih _ _ _ hlt]
      have hf1 : toPoly (f1 * 2) = X * toPoly f1 := by
        rw [Nat.mul_comm, toPoly_two_mul]
      conv_rhs => rw [toPoly_decomp f2]
      rcases Nat.mod_two_eq_zero_or_one f2 with h2 | h2
      · rw [if_neg (by omega), hf1, h2]
        push_cast
        simp only [map_zero, map_one]
        ring
      · rw [if_pos h2, toPoly_xor, hf1, h2]
        push_cast
        simp only [map_zero, map_one]
        ring

open Polynomial in
theorem toPoly_mult_gf2 (a b : Nat) : toPoly (mult_gf2 a b) = toPoly a * toPoly b := by
  unfold mult_gf2
  by_cases h : b > a
  · simp only [h, if_true, reduceIte]
    rw [multGf2Loop_spec _ _ _ _ (Nat.lt_succ_self _), toPoly_zero, zero_add, mul_comm]
  · simp only [h, if_false, reduceIte]
    rw [multGf2Loop_spec _ _ _ _ (Nat.lt_succ_self _), toPoly_zero, zero_add]

/-! ### Correctness of `_div_gf2` on its reachable inputs -/

theorem deg_eq_size (n : Nat) : deg n = Nat.size n := bitLen_eq_size n

open Polynomial in
theorem mult_gf2_shift (b t : Nat) : mult_gf2 b (1 <<< t) = b <<< t := by
  apply toPoly_inj
  rw [toPoly_mult_gf2, toPoly_shiftLeft, toPoly_shiftLeft, toPoly_one, mul_one]
  ring

theorem size_xor_lt (x y : Nat) (hx : x ≠ 0) (hxy : Nat.size x = Nat.size y) :
    Nat.size (x ^^^ y) < Nat.size x := by
  have hs : 0 < Nat.size x := Nat.size_pos.mpr (Nat.pos_of_ne_zero hx)
  have hx2 : x < 2 ^ Nat.size x := Nat.lt_size_self x
  have hy2 : y < 2 ^ Nat.size x := by rw [hxy]; exact Nat.lt_size_self y
  have hlt : x ^^^ y < 2 ^ (Nat.size x - 1) := by
    apply Nat.lt_pow_two_of_testBit
    intro i hi
    rcases Nat.lt_or_ge i (Nat.size x) with h | h
    · have hieq : i = Nat.size x - 1 := by omega
      subst hieq
      rw [Nat.testBit_xor, testBit_size_pred x hx, hxy, testBit_size_pred y
        (by intro h0; rw [h0, Nat.size_zero] at hxy; omega)]
      rfl
    · rw [Nat.testBit_xor, Nat.testBit_lt_two_pow, Nat.testBit_lt_two_pow]
      · rfl
      · calc y < 2 ^ Nat.size x := hy2
          _ ≤ 2 ^ i := Nat.pow_le_pow_right (by omega) h
      · calc x < 2 ^ Nat.size x := hx2
          _ ≤ 2 ^ i := Nat.pow_le_pow_right (by omega) h
  have := Nat.size_le.mpr hlt
  omega

open Polynomial in
theorem divGf2Loop_spec (b : Nat) (hb : b ≠ 0) :
    ∀ (fuel r q : Nat), Nat.size r ≤ fuel →
      Nat.size (divGf2Loop b (deg b) fuel q r).2 < Nat.size b ∧
      toPoly (divGf2Loop b (deg b) fuel q r).2 +
          toPoly b * toPoly (divGf2Loop b (deg b) fuel q r).1 =
        toPoly r + toPoly b * toPoly q := by
  haveI : CharP (Polynomial (ZMod 2)) 2 := Polynomial.instCharP 2
  intro fuel
  induction fuel with
  | zero =>
    intro r q hr
    have hr0 : r = 0 := Nat.size_eq_zero.mp (Nat.le_zero.mp hr)
    subst hr0
    rw [divGf2Loop]
    exact ⟨by rw [Nat.size_zero]; exact Nat.size_pos.mpr (Nat.pos_of_ne_zero hb), rfl⟩
  | succ fuel ih =>
    intro r q hr
    rw [divGf2Loop]
    by_cases hguard : deg r ≥ deg b
    · rw [if_pos hguard]
      simp only []
      set t := deg r - deg b with ht
      have hrne : r ≠ 0 := by
        intro h0
        rw [h0, deg_eq_size, Nat.size_zero] at hguard
        rw [deg_eq_size] at hguard
        have := Nat.size_pos.mpr (Nat.pos_of_ne_zero hb)
        omega
      have hshift : mult_gf2 b (1 <<< t) = b <<< t := mult_gf2_shift b t
      have hguard2 : Nat.size b ≤ Nat.size r := by
        rw [deg_eq_size, deg_eq_size] at hguard
        exact hguard
      have hsizeShift : Nat.size (b <<< t) = Nat.size r := by
        rw [Nat.size_shiftLeft hb t, ht, deg_eq_size, deg_eq_size]
        omega
      have hsz : Nat.size (r ^^^ mult_gf2 b (1 <<< t)) < Nat.size r := by
        rw [hshift]
        exact size_xor_lt r (b <<< t) hrne hsizeShift.symm
      have hrec := ih (r ^^^ mult_gf2 b (1 <<< t)) (q ^^^ 1 <<< t) (by omega)
      refine ⟨hrec.1, ?_⟩
      rw [hrec.2, toPoly_xor, toPoly_xor, hshift, toPoly_shiftLeft, toPoly_shiftLeft,
        toPoly_one, mul_one]
      have h2 : (X : Polynomial (ZMod 2)) ^ t * toPoly b + toPoly b * X ^ t = 0 := by
        rw [mul_comm]
        exact CharTwo.add_self_eq_zero _
      linear_combination h2
    · rw [if_neg hguard]
      rw [deg_eq_size, deg_eq_size] at hguard
      refine ⟨?_, rfl⟩
      show Nat.size r < Nat.size b
      omega

open Polynomial in
theorem div_gf2_spec (a b : Nat) (hb : b ≠ 0) (hab : b ≤ a) :
    Nat.size (div_gf2 a b).2 < Nat.size b ∧
    toPoly (div_gf2 a b).2 + toPoly b * toPoly (div_gf2 a b).1 = toPoly a := by
  unfold div_gf2
  rw [if_neg (by omega)]
  have h := divGf2Loop_spec b hb (a + 1) a 0
    (le_trans (Nat.size_le.mpr (Nat.lt_two_pow a)) (Nat.le_succ a))
  refine ⟨h.1, ?_⟩
  rw [h.2, toPoly_zero, mul_zero, add_zero]

/-! ### Correctness of the masked-select multiplication `_Element.__mul__` -/

theorem land_mask_of_lt (x k : Nat) (h : x < 2 ^ k) : x &&& (2 ^ k - 1) = x := by
  apply Nat.eq_of_testBit_eq
  intro i
  rw [Nat.testBit_and, Nat.testBit_two_pow_sub_one]
  rcases Nat.lt_or_ge i k with hik | hik
  · simp [hik]
  · have : x.testBit i = false := Nat.testBit_lt_two_pow
      (lt_of_lt_of_le h (Nat.pow_le_pow_right (by omega) hik))
    simp [this]

theorem testBit_of_mem_co (k x : Nat) (h1 : 2 ^ k ≤ x) (h2 : x < 2 ^ (k + 1)) :
    x.testBit k = true := by
  rw [Nat.testBit_to_div_mod]
  have hdiv : x / 2 ^ k = 1 := by
    apply Nat.div_eq_of_lt_le
    · simpa using h1
    · have : 2 ^ (k + 1) = 2 * 2 ^ k := by rw [pow_succ']
      omega
  simp [hdiv]

theorem xor_lt_of_mem_co (k x y : Nat) (hx1 : 2 ^ k ≤ x) (hx2 : x < 2 ^ (k + 1))
    (hy1 : 2 ^ k ≤ y) (hy2 : y < 2 ^ (k + 1)) : x ^^^ y < 2 ^ k := by
  apply Nat.lt_pow_two_of_testBit
  intro i hi
  rcases Nat.eq_or_lt_of_le hi with heq | hlt
  · rw [← heq, Nat.testBit_xor, testBit_of_mem_co k x hx1 hx2,
      testBit_of_mem_co k y hy1 hy2]
    rfl
  · rw [Nat.testBit_xor, Nat.testBit_lt_two_pow, Nat.testBit_lt_two_pow]
    · rfl
    · exact lt_of_lt_of_le hy2 (Nat.pow_le_pow_right (by omega) hlt)
    · exact lt_of_lt_of_le hx2 (Nat.pow_le_pow_right (by omega) hlt)

theorem msel_true (k x y : Nat) (hx : x < 2 ^ k) :
    ((2 ^ k - 1) &&& x) ||| ((2 ^ k - (2 ^ k - 1) - 1) &&& y) = x := by
  have h1 : 2 ^ k - (2 ^ k - 1) - 1 = 0 := by
    have : 1 ≤ 2 ^ k := Nat.one_le_two_pow
    omega
  rw [h1, Nat.zero_and, Nat.or_zero, Nat.and_comm, land_mask_of_lt x k hx]

theorem msel_false (k x y : Nat) (hy : y < 2 ^ k) :
    (0 &&& x) ||| ((2 ^ k - 0 - 1) &&& y) = y := by
  rw [Nat.zero_and, Nat.zero_or, Nat.sub_zero, Nat.and_comm, land_mask_of_lt y k hy]

open Polynomial in
theorem elemMulLoop_spec (fs irr : Nat) (hirr1 : 2 ^ fs ≤ irr) (hirr2 : irr < 2 ^ (fs + 1)) :
    ∀ (fuel v z f2 : Nat), f2 < fuel → v < 2 ^ fs → z < 2 ^ fs →
      elemMulLoop fs irr fuel v z f2 < 2 ^ fs ∧
      toPoly irr ∣ toPoly (elemMulLoop fs irr fuel v z f2) -
        (toPoly z + toPoly v * toPoly f2) := by
  intro fuel
  induction fuel with
  | zero => omega
  | succ fuel ih =>
    intro v z f2 hf hv hz
    rw [elemMulLoop]
    by_cases h0 : f2 = 0
    · rw [if_pos h0, h0, toPoly_zero]
      refine ⟨hz, ?_⟩
      simp
    · rw [if_neg h0]
      simp only []
      have hxorlt : z ^^^ v < 2 ^ fs := Nat.xor_lt_two_pow hz hv
      have hv1 : v <<< 1 = 2 * v := by rw [Nat.shiftLeft_eq, pow_one, Nat.mul_comm]
      have hv1lt : v <<< 1 < 2 ^ (fs + 1) := by
        rw [hv1, pow_succ']
        omega
      -- the selected z
      have hzsel : ∀ m2 : Nat, (m2 = if f2 % 2 = 1 then 2 ^ fs - 1 else 0) →
          (m2 &&& (z ^^^ v)) ||| ((2 ^ fs - m2 - 1) &&& z) =
            if f2 % 2 = 1 then z ^^^ v else z := by
        intro m2 hm2
        by_cases hodd : f2 % 2 = 1
        · rw [hm2, if_pos hodd, if_pos hodd]
          exact msel_true fs (z ^^^ v) z hxorlt
        · rw [hm2, if_neg hodd, if_neg hodd]
          exact msel_false fs (z ^^^ v) z hz
      have hvsel : ∀ m3 : Nat, (m3 = if (v <<< 1 >>> fs) % 2 = 1 then 2 ^ fs - 1 else 0) →
          (m3 &&& (v <<< 1 ^^^ irr)) ||| ((2 ^ fs - m3 - 1) &&& v <<< 1) =
            if 2 ^ fs ≤ v <<< 1 then v <<< 1 ^^^ irr else v <<< 1 := by
        intro m3 hm3
        have hcond : ((v <<< 1 >>> fs) % 2 = 1) ↔ 2 ^ fs ≤ v <<< 1 := by
          rw [Nat.shiftRight_eq_div_pow]
          constructor
          · intro h
            by_contra hc
            rw [Nat.div_eq_of_lt (by omega)] at h
            simp at h
          · intro h
            have : v <<< 1 / 2 ^ fs = 1 := by
              apply Nat.div_eq_of_lt_le
              · simpa using h
              · have : 2 ^ (fs + 1) = 2 * 2 ^ fs := by rw [pow_succ']
                omega
            simp [this]
        by_cases hb : 2 ^ fs ≤ v <<< 1
        · rw [hm3, if_pos (hcond.mpr hb), if_pos hb]
          exact msel_true fs (v <<< 1 ^^^ irr) (v <<< 1)
            (xor_lt_of_mem_co fs _ _ hb hv1lt hirr1 hirr2)
        · rw [hm3, if_neg (fun hh => hb (hcond.mp hh)), if_neg hb]
          exact msel_false fs (v <<< 1 ^^^ irr) (v <<< 1) (by omega)
      rw [hzsel _ rfl, hvsel _ rfl]
      set z' := if f2 % 2 = 1 then z ^^^ v else z with hzdef
      set v' := if 2 ^ fs ≤ v <<< 1 then v <<< 1 ^^^ irr else v <<< 1 with hvdef
      have hzlt2 : z' < 2 ^ fs := by
        rw [hzdef]
        by_cases hodd : f2 % 2 = 1 <;> simp [hodd, hxorlt, hz]
      have hvlt2 : v' < 2 ^ fs := by
        rw [hvdef]
        by_cases hb : 2 ^ fs ≤ v <<< 1 <;> simp only [hb, if_true, if_false, reduceIte]
        · exact xor_lt_of_mem_co fs _ _ hb hv1lt hirr1 hirr2
        · omega
      have hrec := ih v' z' (f2 / 2)
        (by
          have : f2 / 2 < f2 := Nat.div_lt_self (Nat.pos_of_ne_zero h0) one_lt_two
          omega) hvlt2 hzlt2
      refine ⟨hrec.1, ?_⟩
      -- polynomial views of the selected values
      have hzpoly : toPoly z' = toPoly z + Polynomial.C ((f2 % 2 : Nat) : ZMod 2) * toPoly v := by
        rw [hzdef]
        rcases Nat.mod_two_eq_zero_or_one f2 with h2 | h2
        · rw [h2, if_neg (by omega)]
          push_cast
          simp
        · rw [h2, if_pos rfl, toPoly_xor]
          push_cast
          simp
      have hsh : toPoly (v <<< 1) = X * toPoly v := by
        rw [toPoly_shiftLeft, pow_one]
      have hvpoly : ∃ dlt : Polynomial (ZMod 2),
          toPoly v' = X * toPoly v + dlt * toPoly irr := by
        rw [hvdef]
        by_cases hb : 2 ^ fs ≤ v <<< 1
        · refine ⟨1, ?_⟩
          rw [if_pos hb, toPoly_xor, hsh]
          ring
        · refine ⟨0, ?_⟩
          rw [if_neg hb, hsh]
          ring
      obtain ⟨dlt, hdlt⟩ := hvpoly
      obtain ⟨c, hc⟩ := hrec.2
      refine ⟨c + dlt * toPoly (f2 / 2), ?_⟩
      have hdecomp := toPoly_decomp f2
      have : toPoly (elemMulLoop fs irr fuel v' z' (f2 / 2)) =
          (toPoly z' + toPoly v' * toPoly (f2 / 2)) + toPoly irr * c := by
        have := hc
        linear_combination hc
      rw [this, hzpoly, hdlt, hdecomp]
      ring

open Polynomial in
theorem elemMul_spec (fs irr a b : Nat) (hirr1 : 2 ^ fs ≤ irr) (hirr2 : irr < 2 ^ (fs + 1))
    (ha : a < 2 ^ fs) (hb : b < 2 ^ fs) :
    elemMul fs irr a b < 2 ^ fs ∧
    toPoly irr ∣ toPoly (elemMul fs irr a b) - toPoly a * toPoly b := by
  unfold elemMul
  have hne1 : irr ≠ max a b := by omega
  have hne2 : irr ≠ min a b := by omega
  by_cases hab : b > a
  · simp only [hab, if_true, reduceIte]
    rw [if_neg (by push_neg; constructor <;> omega)]
    have h := elemMulLoop_spec fs irr hirr1 hirr2 (a + 1) b 0 a (Nat.lt_succ_self a) hb
      (by positivity)
    refine ⟨h.1, ?_⟩
    have := h.2
    rw [toPoly_zero, zero_add] at this
    rw [mul_comm (toPoly a) (toPoly b)]
    exact this
  · simp only [hab, if_false, reduceIte]
    rw [if_neg (by push_neg; constructor <;> omega)]
    have h := elemMulLoop_spec fs irr hirr1 hirr2 (b + 1) a 0 b (Nat.lt_succ_self b) ha
      (by positivity)
    refine ⟨h.1, ?_⟩
    have := h.2
    rw [toPoly_zero, zero_add] at this
    exact this

open Polynomial in
theorem toPoly_cong_eq (fs irr x y : Nat) (hirr1 : 2 ^ fs ≤ irr) (hirr2 : irr < 2 ^ (fs + 1))
    (hx : x < 2 ^ fs) (hy : y < 2 ^ fs)
    (h : toPoly irr ∣ toPoly x - toPoly y) : x = y := by
  have hirrne : irr ≠ 0 := by omega
  have hsize : Nat.size irr = fs + 1 := by
    have h1 := Nat.size_le.mpr hirr2
    have h2 := Nat.lt_size.mpr hirr1
    omega
  have hdeg : (toPoly x - toPoly y).degree < (toPoly irr).degree := by
    rw [toPoly_degree_eq irr hirrne, hsize]
    simp only [Nat.add_sub_cancel]
    calc (toPoly x - toPoly y).degree ≤ max (toPoly x).degree (toPoly y).degree :=
          Polynomial.degree_sub_le _ _
      _ < (fs : WithBot ℕ) := by
          rw [max_lt_iff]
          exact ⟨toPoly_degree_lt x fs hx, toPoly_degree_lt y fs hy⟩
  have hzero : toPoly x - toPoly y = 0 := Polynomial.eq_zero_of_dvd_of_degree_lt h hdeg
  exact toPoly_inj (by linear_combination hzero)

open Polynomial in
theorem elemMul_ne_zero (fs irr a b : Nat) (hirr1 : 2 ^ fs ≤ irr) (hirr2 : irr < 2 ^ (fs + 1))
    (hIrr : Irreducible (toPoly irr))
    (ha : a < 2 ^ fs) (hb : b < 2 ^ fs) (ha0 : a ≠ 0) (hb0 : b ≠ 0) :
    elemMul fs irr a b ≠ 0 := by
  intro hc
  have h := (elemMul_spec fs irr a b hirr1 hirr2 ha hb).2
  rw [hc, toPoly_zero, zero_sub, dvd_neg] at h
  have hprime : Prime (toPoly irr) := hIrr.prime
  rcases hprime.2.2 _ _ h with hdvd | hdvd
  · have : toPoly a = 0 := Polynomial.eq_zero_of_dvd_of_degree_lt hdvd (by
      rw [toPoly_degree_eq irr (by omega)]
      have hsize : Nat.size irr = fs + 1 := by
        have h1 := Nat.size_le.mpr hirr2
        have h2 := Nat.lt_size.mpr hirr1
        omega
      rw [hsize]
      simp only [Nat.add_sub_cancel]
      exact toPoly_degree_lt a fs ha)
    exact ha0 (toPoly_inj (this.trans toPoly_zero.symm))
  · have : toPoly b = 0 := Polynomial.eq_zero_of_dvd_of_degree_lt hdvd (by
      rw [toPoly_degree_eq irr (by omega)]
      have hsize : Nat.size irr = fs + 1 := by
        have h1 := Nat.size_le.mpr hirr2
        have h2 := Nat.lt_size.mpr hirr1
        omega
      rw [hsize]
      simp only [Nat.add_sub_cancel]
      exact toPoly_degree_lt b fs hb)
    exact hb0 (toPoly_inj (this.trans toPoly_zero.symm))

/-! ### Correctness of `_Element.inverse` (extended Euclid) -/

open Polynomial in
theorem mult_gf2_zero_left (x : Nat) : mult_gf2 0 x = 0 := by
  apply toPoly_inj
  rw [toPoly_mult_gf2, toPoly_zero, zero_mul]

open Polynomial in
theorem toPoly_lt_of_degree_lt (x k : Nat) (h : (toPoly x).degree < (k : WithBot ℕ)) :
    x < 2 ^ k := by
  by_cases hx : x = 0
  · subst hx; positivity
  · rw [toPoly_degree_eq x hx] at h
    have hsz : Nat.size x - 1 < k := by exact_mod_cast h
    exact lt_of_lt_of_le (Nat.lt_size_self x)
      (Nat.pow_le_pow_right (by omega) (by
        have := Nat.size_pos.mpr (Nat.pos_of_ne_zero hx)
        omega))

open Polynomial in
theorem degree_lt_degree_of_size_lt (x y : Nat) (hx : x ≠ 0)
    (h : Nat.size x < Nat.size y) :
    (toPoly x).degree < (toPoly y).degree := by
  have hy : y ≠ 0 := by
    intro h0
    rw [h0, Nat.size_zero] at h
    omega
  rw [toPoly_degree_eq x hx, toPoly_degree_eq y hy]
  have hsx : 0 < Nat.size x := Nat.size_pos.mpr (Nat.pos_of_ne_zero hx)
  exact_mod_cast (by omega : Nat.size x - 1 < Nat.size y - 1)

theorem wbot_lt_of_add_le {a b c : WithBot ℕ} (h : a + b ≤ c) (hb : 0 < b) (hc : c ≠ ⊥) :
    a < c := by
  cases a with
  | bot => exact Ne.bot_lt hc
  | coe n =>
    cases b with
    | bot => exact absurd hb (by simp)
    | coe m =>
      cases c with
      | bot => exact absurd hc (by simp)
      | coe k =>
        have hm : 0 < m := by simpa using hb
        have hnk : n + m ≤ k := by exact_mod_cast h
        exact_mod_cast (by omega : n < k)

open Polynomial in
theorem elemInvLoop_spec (fs irr v : Nat) (hirr1 : 2 ^ fs ≤ irr) (hirr2 : irr < 2 ^ (fs + 1)) :
    ∀ (fuel r0 r1 s0 s1 : Nat), Nat.size r1 < fuel → r0 ≠ 0 →
      Nat.size r1 < Nat.size r0 →
      toPoly irr ∣ toPoly s0 * toPoly v - toPoly r0 →
      toPoly irr ∣ toPoly s1 * toPoly v - toPoly r1 →
      IsCoprime (toPoly r0) (toPoly r1) →
      (toPoly s1).degree + (toPoly r0).degree ≤ (toPoly irr).degree →
      (toPoly s0).degree + (toPoly r1).degree ≤ (toPoly irr).degree →
      (toPoly s0).degree < (toPoly irr).degree →
      toPoly irr ∣ toPoly (elemInvLoop fuel r0 r1 s0 s1) * toPoly v - 1 ∧
        elemInvLoop fuel r0 r1 s0 s1 < 2 ^ fs := by
  haveI : CharP (Polynomial (ZMod 2)) 2 := Polynomial.instCharP 2
  have hirrne : irr ≠ 0 := by
    have := Nat.one_le_two_pow (n := fs)
    omega
  have hsizeirr : Nat.size irr = fs + 1 := by
    have h1 := Nat.size_le.mpr hirr2
    have h2 := Nat.lt_size.mpr hirr1
    omega
  have hdegirr : (toPoly irr).degree = (fs : WithBot ℕ) := by
    rw [toPoly_degree_eq irr hirrne, hsizeirr]
    simp
  intro fuel
  induction fuel with
  | zero => omega
  | succ fuel ih =>
    intro r0 r1 s0 s1 hfuel hr0ne hD hA hB hC hE hF hG
    rw [elemInvLoop]
    by_cases hguard : r1 > 0
    · rw [if_pos hguard]
      simp only []
      have hr1ne : r1 ≠ 0 := by omega
      have hr1r0 : r1 < r0 := by
        have h1 : r1 < 2 ^ Nat.size r1 := Nat.lt_size_self r1
        have h2 : 2 ^ (Nat.size r0 - 1) ≤ r0 := Nat.lt_size.mp (by
          have := Nat.size_pos.mpr (Nat.pos_of_ne_zero hr0ne)
          omega)
        have h3 : 2 ^ Nat.size r1 ≤ 2 ^ (Nat.size r0 - 1) :=
          Nat.pow_le_pow_right (by omega) (by omega)
        omega
      have hdiv := div_gf2_spec r0 r1 hr1ne (by omega)
      set q := (div_gf2 r0 r1).1 with hq
      set rem := (div_gf2 r0 r1).2 with hrem
      have hiden := hdiv.2
      have h2c : toPoly r1 * toPoly q + toPoly r1 * toPoly q = 0 :=
        CharTwo.add_self_eq_zero _
      -- the updated remainder equals the division's remainder
      have hr1' : r0 ^^^ mult_gf2 q r1 = rem := by
        apply toPoly_inj
        rw [toPoly_xor, toPoly_mult_gf2]
        linear_combination h2c - hiden
      have hs1' : toPoly (s0 ^^^ mult_gf2 q s1) = toPoly s0 + toPoly q * toPoly s1 := by
        rw [toPoly_xor, toPoly_mult_gf2]
      have hremsize : Nat.size rem < Nat.size r1 := hdiv.1
      have hrempoly : toPoly rem = toPoly r0 - toPoly q * toPoly r1 := by
        linear_combination hiden
      have hrempoly2 : toPoly rem = toPoly r0 + toPoly r1 * toPoly q := by
        linear_combination hiden - h2c
      have hdegr1r0 : (toPoly r1).degree < (toPoly r0).degree :=
        degree_lt_degree_of_size_lt r1 r0 hr1ne hD
      have hdegqr1 : (toPoly q * toPoly r1).degree ≤ (toPoly r0).degree := by
        have heq : toPoly q * toPoly r1 = toPoly r0 - toPoly rem := by
          linear_combination hrempoly
        rw [heq]
        refine le_trans (Polynomial.degree_sub_le _ _) ?_
        rw [max_le_iff]
        refine ⟨le_refl _, ?_⟩
        by_cases hremz : rem = 0
        · rw [hremz, toPoly_zero, Polynomial.degree_zero]
          exact bot_le
        · exact le_of_lt (lt_trans (degree_lt_degree_of_size_lt rem r1 hremz hremsize)
            hdegr1r0)
      have hdegr0pos : (0 : WithBot ℕ) < (toPoly r0).degree := by
        have h2 : 2 ≤ Nat.size r0 := by
          have := Nat.size_pos.mpr (Nat.pos_of_ne_zero hr1ne)
          omega
        rw [toPoly_degree_eq r0 hr0ne]
        exact_mod_cast (by omega : 0 < Nat.size r0 - 1)
      rw [hr1']
      apply ih
      · omega
      · exact hr1ne
      · exact hremsize
      · exact hB
      · -- Bezout congruence for the new s1
        obtain ⟨cA, hcA⟩ := hA
        obtain ⟨cB, hcB⟩ := hB
        refine ⟨cA + toPoly q * cB, ?_⟩
        rw [hs1', hrempoly2]
        linear_combination hcA + toPoly q * hcB
      · -- coprimality advances to the new pair
        rw [hrempoly2]
        exact hC.symm.add_mul_left_right (toPoly q)
      · -- bound (E) for the new state
        rw [hs1']
        have hb2 : (toPoly q * toPoly s1).degree + (toPoly r1).degree ≤
            (toPoly irr).degree := by
          rw [Polynomial.degree_mul, add_comm (toPoly q).degree (toPoly s1).degree,
            add_assoc, ← Polynomial.degree_mul]
          calc (toPoly s1).degree + (toPoly q * toPoly r1).degree
              ≤ (toPoly s1).degree + (toPoly r0).degree := add_le_add_left hdegqr1 _
            _ ≤ (toPoly irr).degree := hE
        calc (toPoly s0 + toPoly q * toPoly s1).degree + (toPoly r1).degree
            ≤ max (toPoly s0).degree (toPoly q * toPoly s1).degree + (toPoly r1).degree :=
              add_le_add_right (Polynomial.degree_add_le _ _) _
          _ ≤ (toPoly irr).degree := by
              rcases max_cases (toPoly s0).degree (toPoly q * toPoly s1).degree with
                ⟨hmx, _⟩ | ⟨hmx, _⟩
              · rw [hmx]; exact hF
              · rw [hmx]; exact hb2
      · -- bound (F) for the new state
        by_cases hremz : rem = 0
        · rw [hremz, toPoly_zero, Polynomial.degree_zero]
          simp
        · refine le_trans (add_le_add_left
            (le_of_lt (lt_trans (degree_lt_degree_of_size_lt rem r1 hremz hremsize)
              hdegr1r0)) _) hE
      · -- bound (G) for the new state
        refine wbot_lt_of_add_le hE hdegr0pos ?_
        rw [hdegirr]
        exact WithBot.coe_ne_bot
    · rw [if_neg hguard]
      have hr1z : r1 = 0 := by omega
      subst hr1z
      have hunit : IsUnit (toPoly r0) := by
        have hc0 := hC
        rw [toPoly_zero] at hc0
        exact isCoprime_zero_right.mp hc0
      have hr0one : r0 = 1 := by
        rcases Polynomial.isUnit_iff.mp hunit with ⟨c, hcu, hcp⟩
        have hcne : c ≠ 0 := by
          intro h0
          rw [h0] at hcu
          exact not_isUnit_zero hcu
        have hc1 : c = 1 := by
          rcases (by decide : ∀ x : ZMod 2, x = 0 ∨ x = 1) c with h | h
          · exact absurd h hcne
          · exact h
        apply toPoly_inj
        rw [toPoly_one, ← hcp, hc1, map_one]
      refine ⟨?_, ?_⟩
      · subst hr0one
        rw [toPoly_one] at hA
        exact hA
      · apply toPoly_lt_of_degree_lt
        rw [← hdegirr]
        exact hG

open Polynomial in
theorem elemInverse_spec (fs irr v : Nat) (hirr1 : 2 ^ fs ≤ irr) (hirr2 : irr < 2 ^ (fs + 1))
    (hIrr : Irreducible (toPoly irr)) (hv0 : v ≠ 0) (hv : v < 2 ^ fs) :
    elemInverse irr v = Except.ok (elemInvLoop (irr + 2) v irr 1 0) ∧
      toPoly irr ∣ toPoly (elemInvLoop (irr + 2) v irr 1 0) * toPoly v - 1 ∧
      elemInvLoop (irr + 2) v irr 1 0 < 2 ^ fs := by
  haveI : CharP (Polynomial (ZMod 2)) 2 := Polynomial.instCharP 2
  have hirrne : irr ≠ 0 := by
    have := Nat.one_le_two_pow (n := fs)
    omega
  have hirrv : v < irr := lt_of_lt_of_le hv hirr1
  have hsizeirr : Nat.size irr = fs + 1 := by
    have h1 := Nat.size_le.mpr hirr2
    have h2 := Nat.lt_size.mpr hirr1
    omega
  have hsizev : Nat.size v ≤ fs := Nat.size_le.mpr hv
  have hdegirr : (toPoly irr).degree = (fs : WithBot ℕ) := by
    rw [toPoly_degree_eq irr hirrne, hsizeirr]
    simp
  refine ⟨by rw [elemInverse, if_neg hv0], ?_⟩
  -- unroll the first iteration: the quotient of `v` by the larger `irr` is 0,
  -- so the state becomes `(irr, v, 0, 1)`
  have hstep : elemInvLoop (irr + 2) v irr 1 0 = elemInvLoop (irr + 1) irr v 0 1 := by
    show elemInvLoop ((irr + 1) + 1) v irr 1 0 = _
    rw [elemInvLoop, if_pos (Nat.pos_of_ne_zero hirrne)]
    simp only [div_gf2, if_pos hirrv, mult_gf2_zero_left, Nat.xor_zero]
  rw [hstep]
  apply elemInvLoop_spec fs irr v hirr1 hirr2
  · have := Nat.lt_two_pow fs
    omega
  · exact hirrne
  · omega
  · exact ⟨-1, by rw [toPoly_zero]; ring⟩
  · exact ⟨0, by rw [toPoly_one]; ring⟩
  · refine hIrr.coprime_iff_not_dvd.mpr ?_
    intro hdvd
    have hdeg : (toPoly v).degree < (toPoly irr).degree :=
      degree_lt_degree_of_size_lt v irr hv0 (by omega)
    have := Polynomial.eq_zero_of_dvd_of_degree_lt hdvd hdeg
    rw [toPoly_eq_zero_iff] at this
    exact hv0 this
  · rw [toPoly_one, Polynomial.degree_one, zero_add]
  · rw [toPoly_zero, Polynomial.degree_zero]
    simp
  · rw [toPoly_zero, Polynomial.degree_zero, hdegirr]
    exact WithBot.bot_lt_coe fs

/-! ### Transfer lemmas for the sparse-reduction machinery -/

open Polynomial in
theorem toPoly_add_shiftLeft (k : Nat) : ∀ x y : Nat, x < 2 ^ k →
    toPoly (x + (y <<< k)) = toPoly x + X ^ k * toPoly y := by
  induction k with
  | zero =>
    intro x y hx
    have hx0 : x = 0 := by omega
    subst hx0
    simp [Nat.shiftLeft_eq, toPoly_zero]
  | succ k ih =>
    intro x y hx
    have hx2 : x < 2 * 2 ^ k := by
      rw [← pow_succ']
      exact hx
    have hsh : y <<< (k + 1) = 2 * (y <<< k) := by
      rw [Nat.shiftLeft_eq, Nat.shiftLeft_eq, pow_succ]
      ring
    have hmod : (x + y <<< (k + 1)) % 2 = x % 2 := by rw [hsh]; omega
    have hdiv : (x + y <<< (k + 1)) / 2 = x / 2 + y <<< k := by rw [hsh]; omega
    rw [toPoly_decomp, hmod, hdiv, ih (x / 2) y (by omega)]
    conv_rhs => rw [toPoly_decomp]
    ring

open Polynomial in
theorem toPoly_split (m x : Nat) :
    toPoly x = toPoly (x % 2 ^ m) + X ^ m * toPoly (x >>> m) := by
  have h : x % 2 ^ m + ((x >>> m) <<< m) = x := by
    rw [Nat.shiftLeft_eq, Nat.shiftRight_eq_div_pow]
    exact Nat.mod_add_div' x (2 ^ m)
  conv_lhs => rw [← h]
  exact toPoly_add_shiftLeft m _ _ (Nat.mod_lt _ (by positivity))

open Polynomial in
theorem toPoly_irr5 (a b c m : Nat) (h1 : 0 < a) (hab : a < b) (hbc : b < c) (hcm : c < m) :
    toPoly (1 + 2 ^ a + 2 ^ b + 2 ^ c + 2 ^ m) = 1 + X ^ a + X ^ b + X ^ c + X ^ m := by
  have p1 : (1 : Nat) < 2 ^ a := Nat.one_lt_two_pow_iff.mpr (by omega)
  have pab : 2 ^ (a + 1) ≤ 2 ^ b := Nat.pow_le_pow_right (by norm_num) (by omega)
  have pbc : 2 ^ (b + 1) ≤ 2 ^ c := Nat.pow_le_pow_right (by norm_num) (by omega)
  have pcm : 2 ^ (c + 1) ≤ 2 ^ m := Nat.pow_le_pow_right (by norm_num) (by omega)
  have ea : 2 ^ (a + 1) = 2 * 2 ^ a := by rw [pow_succ']
  have eb : 2 ^ (b + 1) = 2 * 2 ^ b := by rw [pow_succ']
  have ec : 2 ^ (c + 1) = 2 * 2 ^ c := by rw [pow_succ']
  have hsm : 1 + 2 ^ a + 2 ^ b + 2 ^ c < 2 ^ m := by omega
  have hsc : 1 + 2 ^ a + 2 ^ b < 2 ^ c := by omega
  have hsb : 1 + 2 ^ a < 2 ^ b := by omega
  rw [show (1 + 2 ^ a + 2 ^ b + 2 ^ c + 2 ^ m : Nat) =
    (1 + 2 ^ a + 2 ^ b + 2 ^ c) + (1 <<< m) by rw [Nat.one_shiftLeft]]
  rw [toPoly_add_shiftLeft m _ 1 hsm]
  rw [show (1 + 2 ^ a + 2 ^ b + 2 ^ c : Nat) =
    (1 + 2 ^ a + 2 ^ b) + (1 <<< c) by rw [Nat.one_shiftLeft]]
  rw [toPoly_add_shiftLeft c _ 1 hsc]
  rw [show (1 + 2 ^ a + 2 ^ b : Nat) = (1 + 2 ^ a) + (1 <<< b) by rw [Nat.one_shiftLeft]]
  rw [toPoly_add_shiftLeft b _ 1 hsb]
  rw [show (1 + 2 ^ a : Nat) = 1 + (1 <<< a) by rw [Nat.one_shiftLeft]]
  rw [toPoly_add_shiftLeft a 1 1 (by omega), toPoly_one]
  ring

open Polynomial in
theorem redStep_congr (m a b c irr x : Nat)
    (hirr : toPoly irr = 1 + X ^ a + X ^ b + X ^ c + X ^ m) :
    toPoly irr ∣ toPoly (redStep m a b c x) - toPoly x := by
  haveI : CharP (Polynomial (ZMod 2)) 2 := Polynomial.instCharP 2
  refine ⟨toPoly (x >>> m), ?_⟩
  have hsplit := toPoly_split m x
  rw [redStep, Nat.and_pow_two_sub_one_eq_mod, toPoly_xor, toPoly_xor, toPoly_xor, toPoly_xor,
    toPoly_shiftLeft, toPoly_shiftLeft, toPoly_shiftLeft, hsplit, hirr]
  have h2 : X ^ m * toPoly (x >>> m) + X ^ m * toPoly (x >>> m) = 0 :=
    CharTwo.add_self_eq_zero _
  linear_combination - h2

theorem redStep_size (m a b c x : Nat) (hab : a < b) (hbc : b < c) (hcm : c < m)
    (hx : 2 ^ m ≤ x) :
    Nat.size (redStep m a b c x) < Nat.size x := by
  set s := Nat.size x with hs
  have hms : m < s := Nat.lt_size.mpr hx
  have hxlt : x < 2 ^ s := Nat.lt_size_self x
  have hh : x >>> m < 2 ^ (s - m) := by
    rw [Nat.shiftRight_eq_div_pow]
    apply Nat.div_lt_of_lt_mul
    rw [← pow_add, show m + (s - m) = s by omega]
    exact hxlt
  have hcomp : ∀ k, k < m → (x >>> m) <<< k < 2 ^ (s - 1) := by
    intro k hk
    rw [Nat.shiftLeft_eq]
    calc (x >>> m) * 2 ^ k < 2 ^ (s - m) * 2 ^ k :=
          (Nat.mul_lt_mul_right (by positivity)).mpr hh
      _ = 2 ^ (s - m + k) := by rw [← pow_add]
      _ ≤ 2 ^ (s - 1) := Nat.pow_le_pow_right (by norm_num) (by omega)
  have h0 : x % 2 ^ m < 2 ^ (s - 1) :=
    lt_of_lt_of_le (Nat.mod_lt _ (by positivity))
      (Nat.pow_le_pow_right (by norm_num) (by omega))
  have h1 : x >>> m < 2 ^ (s - 1) :=
    lt_of_lt_of_le hh (Nat.pow_le_pow_right (by norm_num) (by omega))
  have hall : redStep m a b c x < 2 ^ (s - 1) := by
    rw [redStep, Nat.and_pow_two_sub_one_eq_mod]
    exact Nat.xor_lt_two_pow
      (Nat.xor_lt_two_pow
        (Nat.xor_lt_two_pow (Nat.xor_lt_two_pow h0 h1) (hcomp a (by omega)))
        (hcomp b (by omega)))
      (hcomp c (by omega))
  have := Nat.size_le.mpr hall
  omega

open Polynomial in
theorem redLoop_spec (m a b c irr : Nat) (hab : a < b) (hbc : b < c) (hcm : c < m)
    (hirr : toPoly irr = 1 + X ^ a + X ^ b + X ^ c + X ^ m) :
    ∀ (fuel x : Nat), Nat.size x ≤ m + fuel →
      redLoop m a b c fuel x < 2 ^ m ∧
        toPoly irr ∣ toPoly (redLoop m a b c fuel x) - toPoly x := by
  intro fuel
  induction fuel with
  | zero =>
    intro x hx
    rw [redLoop]
    refine ⟨?_, by simp⟩
    exact lt_of_lt_of_le (Nat.lt_size_self x) (Nat.pow_le_pow_right (by norm_num) (by omega))
  | succ fuel ih =>
    intro x hx
    rw [redLoop]
    by_cases h0 : x >>> m = 0
    · rw [if_pos h0]
      refine ⟨?_, by simp⟩
      rw [Nat.shiftRight_eq_div_pow] at h0
      exact (Nat.div_eq_zero_iff (by positivity)).mp h0
    · rw [if_neg h0]
      have hx2 : 2 ^ m ≤ x := by
        by_contra hlt
        push_neg at hlt
        apply h0
        rw [Nat.shiftRight_eq_div_pow]
        exact Nat.div_eq_of_lt hlt
      have hsz := redStep_size m a b c x hab hbc hcm hx2
      obtain ⟨hlt, hdv⟩ := ih (redStep m a b c x) (by omega)
      refine ⟨hlt, ?_⟩
      have hstep := redStep_congr m a b c irr x hirr
      have hsum := dvd_add hdv hstep
      rwa [sub_add_sub_cancel] at hsum

theorem mult_gf2_lt (m x y : Nat) (hx : x < 2 ^ m) (hy : y < 2 ^ m) :
    mult_gf2 x y < 2 ^ (2 * m) := by
  by_cases hx0 : x = 0
  · subst hx0
    rw [mult_gf2_zero_left]
    positivity
  by_cases hy0 : y = 0
  · subst hy0
    have hz : mult_gf2 x 0 = 0 := by
      apply toPoly_inj
      rw [toPoly_mult_gf2, toPoly_zero, mul_zero]
    rw [hz]
    positivity
  apply toPoly_lt_of_degree_lt
  rw [toPoly_mult_gf2, Polynomial.degree_mul, toPoly_degree_eq x hx0, toPoly_degree_eq y hy0]
  have hsx : Nat.size x ≤ m := Nat.size_le.mpr hx
  have hsy : Nat.size y ≤ m := Nat.size_le.mpr hy
  have hsx1 : 1 ≤ Nat.size x := Nat.size_pos.mpr (Nat.pos_of_ne_zero hx0)
  have hsy1 : 1 ≤ Nat.size y := Nat.size_pos.mpr (Nat.pos_of_ne_zero hy0)
  exact_mod_cast (by omega : Nat.size x - 1 + (Nat.size y - 1) < 2 * m)

open Polynomial in
theorem sqStep_spec (m a b c irr x : Nat) (hab : a < b) (hbc : b < c) (hcm : c < m)
    (hirr : toPoly irr = 1 + X ^ a + X ^ b + X ^ c + X ^ m) (hx : x < 2 ^ m) :
    sqStep m a b c x < 2 ^ m ∧
      toPoly irr ∣ toPoly (sqStep m a b c x) - toPoly x ^ 2 := by
  have hm := mult_gf2_lt m x x hx hx
  have hsz : Nat.size (mult_gf2 x x) ≤ m + m := by
    rw [two_mul] at hm
    exact Nat.size_le.mpr hm
  obtain ⟨h1, h2⟩ := redLoop_spec m a b c irr hab hbc hcm hirr m (mult_gf2 x x) hsz
  refine ⟨h1, ?_⟩
  rwa [toPoly_mult_gf2, ← sq] at h2

theorem sqChain_succ (m a b c k x : Nat) :
    sqChain m a b c (k + 1) x = sqChain m a b c k (sqStep m a b c x) := by
  rw [sqChain]
  by_cases h : x = 0
  · rw [if_pos h, h]
  · rw [if_neg h]

open Polynomial in
theorem sqChain_spec (m a b c irr : Nat) (hab : a < b) (hbc : b < c) (hcm : c < m)
    (hirr : toPoly irr = 1 + X ^ a + X ^ b + X ^ c + X ^ m) :
    ∀ (k x : Nat), x < 2 ^ m →
      sqChain m a b c k x < 2 ^ m ∧
        toPoly irr ∣ toPoly (sqChain m a b c k x) - toPoly x ^ 2 ^ k := by
  intro k
  induction k with
  | zero =>
    intro x hx
    rw [sqChain]
    exact ⟨hx, by simp⟩
  | succ k ih =>
    intro x hx
    rw [sqChain_succ]
    obtain ⟨hs1, hs2⟩ := sqStep_spec m a b c irr x hab hbc hcm hirr hx
    obtain ⟨hc1, hc2⟩ := ih (sqStep m a b c x) hs1
    refine ⟨hc1, ?_⟩
    have hpow : toPoly irr ∣ toPoly (sqStep m a b c x) ^ 2 ^ k - (toPoly x ^ 2) ^ 2 ^ k :=
      dvd_trans hs2 (sub_dvd_pow_sub_pow _ _ _)
    have hsum := dvd_add hc2 hpow
    rw [sub_add_sub_cancel, ← pow_mul, show 2 * 2 ^ k = 2 ^ (k + 1) from (pow_succ' 2 k).symm]
      at hsum
    exact hsum

theorem sqChain_add (m a b c j k x : Nat) :
    sqChain m a b c (j + k) x = sqChain m a b c k (sqChain m a b c j x) := by
  induction j generalizing x with
  | zero =>
    rw [Nat.zero_add]
    rfl
  | succ j ihj =>
    rw [show j + 1 + k = (j + k) + 1 by omega, sqChain_succ, ihj, sqChain_succ]

/-! ### Rabin irreducibility criterion over GF(2) -/

open Polynomial
open Polynomial

theorem dvd_of_two_pow_sub_one_dvd {d n : Nat} (hd : 0 < d)
    (h : 2 ^ d - 1 ∣ 2 ^ n - 1) : d ∣ n := by
  by_contra hnd
  have hs0 : n % d ≠ 0 := fun h0 => hnd (Nat.dvd_of_mod_eq_zero h0)
  have hsd : n % d < d := Nat.mod_lt _ hd
  have h1 : 2 ^ d - 1 ∣ 2 ^ (d * (n / d)) - 1 :=
    nat_pow_one_sub_dvd_pow_mul_sub_one 2 d (n / d)
  have hz : ((2 : ℤ)) ^ d - 1 ∣ 2 ^ n - 1 := by
    have := Int.natCast_dvd_natCast.mpr h
    push_cast [Nat.one_le_two_pow] at this
    exact this
  have hz1 : ((2 : ℤ)) ^ d - 1 ∣ 2 ^ (d * (n / d)) - 1 := by
    have := Int.natCast_dvd_natCast.mpr h1
    push_cast [Nat.one_le_two_pow] at this
    exact this
  have hdecomp : (2 : ℤ) ^ n - 1 =
      2 ^ (n % d) * (2 ^ (d * (n / d)) - 1) + (2 ^ (n % d) - 1) := by
    have hn : d * (n / d) + n % d = n := Nat.div_add_mod n d
    have hpow : (2 : ℤ) ^ n = 2 ^ (d * (n / d)) * 2 ^ (n % d) := by
      rw [← pow_add, hn]
    rw [hpow]
    ring
  have hkey : ((2 : ℤ)) ^ d - 1 ∣ 2 ^ (n % d) - 1 := by
    have := dvd_sub hz (Dvd.dvd.mul_left hz1 (2 ^ (n % d)))
    rw [hdecomp] at this
    simpa using this
  have hpos : (0 : ℤ) < 2 ^ (n % d) - 1 := by
    have : (2 : ℤ) ^ 1 ≤ 2 ^ (n % d) := pow_le_pow_right₀ (by norm_num) (by omega)
    simp at this
    omega
  have hle := Int.le_of_dvd hpos hkey
  have hlt : (2 : ℤ) ^ (n % d) < 2 ^ d := pow_lt_pow_right₀ (by norm_num) hsd
  omega

theorem X_pow_two_pow_sub_X_dvd {d k : ℕ} (hdk : d ∣ k) :
    (X ^ 2 ^ d - X : Polynomial (ZMod 2)) ∣ X ^ 2 ^ k - X := by
  obtain ⟨e, rfl⟩ := hdk
  have h1 : 2 ^ d - 1 ∣ 2 ^ (d * e) - 1 := nat_pow_one_sub_dvd_pow_mul_sub_one 2 d e
  obtain ⟨t, ht⟩ := h1
  have h2 : (X ^ (2 ^ d - 1) - 1 : Polynomial (ZMod 2)) ∣ X ^ (2 ^ (d * e) - 1) - 1 := by
    rw [ht]
    exact pow_one_sub_dvd_pow_mul_sub_one X (2 ^ d - 1) t
  have h3 : ∀ j : ℕ, (X ^ 2 ^ j - X : Polynomial (ZMod 2)) = X * (X ^ (2 ^ j - 1) - 1) := by
    intro j
    rw [mul_sub, mul_one, ← pow_succ', Nat.sub_add_cancel Nat.one_le_two_pow]
  rw [h3 d, h3 (d * e)]
  exact mul_dvd_mul_left X h2

theorem irreducible_dvd_X_pow_card (g : Polynomial (ZMod 2)) (hg : Irreducible g) :
    g ∣ X ^ 2 ^ g.natDegree - X := by
  haveI := Fact.mk hg
  have hg0 : g ≠ 0 := hg.ne_zero
  haveI : Module.Finite (ZMod 2) (AdjoinRoot g) :=
    Module.Finite.of_basis (AdjoinRoot.powerBasis hg0).basis
  haveI : Finite (AdjoinRoot g) := Module.finite_of_finite (ZMod 2)
  haveI : Fintype (AdjoinRoot g) := Fintype.ofFinite _
  have hcard : Fintype.card (AdjoinRoot g) = 2 ^ g.natDegree := by
    rw [card_eq_pow_finrank (K := ZMod 2) (V := AdjoinRoot g),
      (AdjoinRoot.powerBasis hg0).finrank, AdjoinRoot.powerBasis_dim, ZMod.card]
  rw [← AdjoinRoot.mk_eq_zero, map_sub, map_pow, AdjoinRoot.mk_X, ← hcard,
    FiniteField.pow_card, sub_self]

theorem natDegree_dvd_of_dvd_X_pow (g : Polynomial (ZMod 2)) (hg : Irreducible g) (n : ℕ)
    (hdvd : g ∣ X ^ 2 ^ n - X) : g.natDegree ∣ n := by
  haveI := Fact.mk hg
  have hg0 : g ≠ 0 := hg.ne_zero
  have hd0 : 0 < g.natDegree := hg.natDegree_pos
  haveI : Module.Finite (ZMod 2) (AdjoinRoot g) :=
    Module.Finite.of_basis (AdjoinRoot.powerBasis hg0).basis
  haveI : Finite (AdjoinRoot g) := Module.finite_of_finite (ZMod 2)
  haveI : Fintype (AdjoinRoot g) := Fintype.ofFinite _
  have hcard : Fintype.card (AdjoinRoot g) = 2 ^ g.natDegree := by
    rw [card_eq_pow_finrank (K := ZMod 2) (V := AdjoinRoot g),
      (AdjoinRoot.powerBasis hg0).finrank, AdjoinRoot.powerBasis_dim, ZMod.card]
  have hroot : (AdjoinRoot.root g) ^ 2 ^ n = AdjoinRoot.root g := by
    have h0 : AdjoinRoot.mk g (X ^ 2 ^ n - X) = 0 := AdjoinRoot.mk_eq_zero.mpr hdvd
    rw [map_sub, map_pow, AdjoinRoot.mk_X] at h0
    exact sub_eq_zero.mp h0
  haveI : CharP (AdjoinRoot g) 2 :=
    charP_of_injective_algebraMap (algebraMap (ZMod 2) (AdjoinRoot g)).injective 2
  have hfix : ∀ x : AdjoinRoot g, x ^ 2 ^ n = x := by
    have hcomp : (iterateFrobenius (AdjoinRoot g) 2 n).comp (AdjoinRoot.mk g) =
        AdjoinRoot.mk g := by
      apply Polynomial.ringHom_ext
      · intro a
        rcases (by decide : ∀ x : ZMod 2, x = 0 ∨ x = 1) a with h | h <;> subst h <;> simp
      · show iterateFrobenius (AdjoinRoot g) 2 n (AdjoinRoot.mk g X) = AdjoinRoot.mk g X
        rw [AdjoinRoot.mk_X, iterateFrobenius_def]
        exact hroot
    intro x
    obtain ⟨p, rfl⟩ := AdjoinRoot.mk_surjective x
    have hx := RingHom.congr_fun hcomp p
    rw [RingHom.comp_apply, iterateFrobenius_def] at hx
    exact hx
  have hu : ∀ x : (AdjoinRoot g)ˣ, x ^ (2 ^ n - 1) = 1 := by
    intro x
    have hxne : (x : AdjoinRoot g) ≠ 0 := Units.ne_zero x
    have h1 : (x : AdjoinRoot g) ^ (2 ^ n - 1) * x = 1 * x := by
      rw [← pow_succ, Nat.sub_add_cancel Nat.one_le_two_pow, one_mul]
      exact hfix x
    have h2 : (x : AdjoinRoot g) ^ (2 ^ n - 1) = 1 := mul_right_cancel₀ hxne h1
    ext
    push_cast
    exact h2
  have hdvd1 := (FiniteField.forall_pow_eq_one_iff (AdjoinRoot g) (2 ^ n - 1)).mp hu
  rw [hcard] at hdvd1
  exact dvd_of_two_pow_sub_one_dvd hd0 hdvd1

theorem irreducible_of_rabin (P : Polynomial (ZMod 2)) (n : ℕ) (hn : 0 < n)
    (hdeg : P.natDegree = n)
    (hdvd : P ∣ X ^ 2 ^ n - X)
    (hcop : ∀ r : ℕ, r.Prime → r ∣ n → IsCoprime P (X ^ 2 ^ (n / r) - X)) :
    Irreducible P := by
  have hP0 : P ≠ 0 := by
    intro h
    rw [h, natDegree_zero] at hdeg
    omega
  have hPu : ¬IsUnit P := by
    intro hu
    have := natDegree_eq_zero_of_isUnit hu
    omega
  obtain ⟨g, hgi, hgd⟩ := WfDvdMonoid.exists_irreducible_factor hPu hP0
  have hd0 : 0 < g.natDegree := hgi.natDegree_pos
  have hgdvd : g ∣ X ^ 2 ^ n - X := hgd.trans hdvd
  have hddvd : g.natDegree ∣ n := natDegree_dvd_of_dvd_X_pow g hgi n hgdvd
  have hdn : g.natDegree = n := by
    by_contra hne
    obtain ⟨e, he⟩ := hddvd
    have he1 : 1 < e := by
      rcases Nat.lt_or_ge e 2 with h2 | h2
      · interval_cases e <;> omega
      · exact h2
    have hrp : (e.minFac).Prime := Nat.minFac_prime (by omega)
    have hrn : e.minFac ∣ n := he ▸ Dvd.dvd.mul_left (Nat.minFac_dvd e) _
    have hdnr : g.natDegree ∣ n / e.minFac := by
      rw [he, Nat.mul_div_assoc _ (Nat.minFac_dvd e)]
      exact Dvd.intro _ rfl
    have hgX : g ∣ X ^ 2 ^ (n / e.minFac) - X :=
      (irreducible_dvd_X_pow_card g hgi).trans (X_pow_two_pow_sub_X_dvd hdnr)
    exact hgi.not_unit ((hcop e.minFac hrp hrn).isUnit_of_dvd' hgd hgX)
  obtain ⟨t, ht⟩ := hgd
  have ht0 : t ≠ 0 := by
    rintro rfl
    rw [mul_zero] at ht
    exact hP0 ht
  have htdeg : t.natDegree = 0 := by
    have hmul : g.natDegree + t.natDegree = n := by
      rw [← Polynomial.natDegree_mul hgi.ne_zero ht0, ← ht, hdeg]
    omega
  have htu : IsUnit t := by
    rw [Polynomial.isUnit_iff_degree_eq_zero]
    rw [Polynomial.degree_eq_natDegree ht0, htdeg]
    rfl
  exact Associated.irreducible ⟨htu.unit, by rw [ht]; rfl⟩ hgi

theorem chain_pow_congr (m a b c irr k w : Nat) (hab : a < b) (hbc : b < c) (hcm : c < m)
    (hirr : toPoly irr = 1 + X ^ a + X ^ b + X ^ c + X ^ m)
    (h2m : 2 < 2 ^ m)
    (hch : sqChain m a b c k 2 = w) :
    toPoly irr ∣ toPoly w - X ^ 2 ^ k := by
  have h := (sqChain_spec m a b c irr hab hbc hcm hirr k 2 h2m).2
  rwa [hch, toPoly_two] at h

theorem isCoprime_of_cert (irr w s t k : Nat)
    (hcong : toPoly irr ∣ toPoly w - X ^ 2 ^ k)
    (hcert : mult_gf2 s irr ^^^ mult_gf2 t (w ^^^ 2) = 1) :
    IsCoprime (toPoly irr) (X ^ 2 ^ k - X) := by
  haveI : CharP (Polynomial (ZMod 2)) 2 := Polynomial.instCharP 2
  obtain ⟨cc, hcc⟩ := hcong
  have hbez : toPoly s * toPoly irr + toPoly t * toPoly (w ^^^ 2) = 1 := by
    have h := congrArg toPoly hcert
    rwa [toPoly_xor, toPoly_mult_gf2, toPoly_mult_gf2, toPoly_one] at h
  have hcp : IsCoprime (toPoly irr) (toPoly (w ^^^ 2)) := ⟨toPoly s, toPoly t, hbez⟩
  have h2x : (X : Polynomial (ZMod 2)) + X = 0 := CharTwo.add_self_eq_zero _
  have heq : X ^ 2 ^ k - X = toPoly (w ^^^ 2) + toPoly irr * (-cc) := by
    rw [toPoly_xor, toPoly_two]
    linear_combination - hcc - h2x
  rw [heq]
  exact hcp.add_mul_left_right (-cc)
theorem chainP128seg0 : sqChain 128 11 35 77 64 0x2 = 0x1fdacb452e3e104a5d45ec8f72604422 := by
  decide!

theorem chainP128seg1 : sqChain 128 11 35 77 64 0x1fdacb452e3e104a5d45ec8f72604422 = 0x2 := by
  decide!

theorem certP128cp64 :
    mult_gf2 0x7fb046a9a079e42fcb87be2c7fe6401 P128 ^^^ mult_gf2 0x40b733df3131c2c3477a4a3191c3df60 (0x1fdacb452e3e104a5d45ec8f72604422 ^^^ 2) = 1 := by
  decide!

theorem irreducible_P128 : Irreducible (toPoly P128) := by
  have hirr : toPoly P128 = 1 + X ^ 11 + X ^ 35 + X ^ 77 + X ^ 128 :=
    toPoly_irr5 11 35 77 128 (by norm_num) (by norm_num) (by norm_num) (by norm_num)
  have hne : P128 ≠ 0 := by
    have hp : 0 < P128 := by rw [P128]; positivity
    omega
  have hsize : Nat.size P128 = 129 := by
    rw [← bitLen_eq_size]
    decide!
  have hdeg : (toPoly P128).natDegree = 128 := by
    rw [toPoly_natDegree P128 hne, hsize]
  have h2m : (2 : Nat) < 2 ^ 128 := by norm_num
  have hch : sqChain 128 11 35 77 128 2 = 2 := by
    rw [show (128 : Nat) = 64 + 64 from rfl, sqChain_add, chainP128seg0, chainP128seg1]
  have hcong64 : toPoly P128 ∣ toPoly 0x1fdacb452e3e104a5d45ec8f72604422 - X ^ 2 ^ 64 := by
    apply chain_pow_congr 128 11 35 77 P128 64 0x1fdacb452e3e104a5d45ec8f72604422 (by norm_num) (by norm_num) (by norm_num) hirr h2m
    exact chainP128seg0
  have hXdvd : toPoly P128 ∣ X ^ 2 ^ 128 - X := by
    have h := chain_pow_congr 128 11 35 77 P128 128 2 (by norm_num) (by norm_num) (by norm_num) hirr h2m hch
    rw [toPoly_two] at h
    exact dvd_sub_comm.mp h
  apply irreducible_of_rabin (toPoly P128) 128 (by norm_num) hdeg hXdvd
  intro r hr hrdvd
  have hfac : (128 : Nat) = 2 ^ 7 := by norm_num
  rw [hfac] at hrdvd
  have hr2 : r = 2 := (Nat.prime_dvd_prime_iff_eq hr Nat.prime_two).mp (hr.dvd_of_dvd_pow hrdvd)
  subst hr2
  rw [show (128 / 2 : Nat) = 64 from rfl]
  exact isCoprime_of_cert P128 0x1fdacb452e3e104a5d45ec8f72604422 0x7fb046a9a079e42fcb87be2c7fe6401 0x40b733df3131c2c3477a4a3191c3df60 64 hcong64 certP128cp64


theorem chainP160seg0 : sqChain 160 30 56 101 32 0x2 = 0x630ac64ee79374019225221b055ae72f173d1d4c := by
  decide!

theorem chainP160seg1 : sqChain 160 30 56 101 48 0x630ac64ee79374019225221b055ae72f173d1d4c = 0x69cb249c739a63a3a693a75d73c02847ae9c59eb := by
  decide!

theorem chainP160seg2 : sqChain 160 30 56 101 80 0x69cb249c739a63a3a693a75d73c02847ae9c59eb = 0x2 := by
  decide!

theorem certP160cp32 :
    mult_gf2 0x38b0a7d17ef5f72291945b856abba91a9941acbf P160 ^^^ mult_gf2 0xb9547032b7f7c25d4625396f97445a4b7da56c49 (0x630ac64ee79374019225221b055ae72f173d1d4c ^^^ 2) = 1 := by
  decide!

theorem certP160cp80 :
    mult_gf2 0x23689b616dc889b1f9205b13bd570ac90844bfb5 P160 ^^^ mult_gf2 0xe26fdf2faaf3fb86913b92366eab8831b8686294 (0x69cb249c739a63a3a693a75d73c02847ae9c59eb ^^^ 2) = 1 := by
  decide!

theorem irreducible_P160 : Irreducible (toPoly P160) := by
  have hirr : toPoly P160 = 1 + X ^ 30 + X ^ 56 + X ^ 101 + X ^ 160 :=
    toPoly_irr5 30 56 101 160 (by norm_num) (by norm_num) (by norm_num) (by norm_num)
  have hne : P160 ≠ 0 := by
    have hp : 0 < P160 := by rw [P160]; positivity
    omega
  have hsize : Nat.size P160 = 161 := by
    rw [← bitLen_eq_size]
    decide!
  have hdeg : (toPoly P160).natDegree = 160 := by
    rw [toPoly_natDegree P160 hne, hsize]
  have h2m : (2 : Nat) < 2 ^ 160 := by norm_num
  have hch : sqChain 160 30 56 101 160 2 = 2 := by
    rw [show (160 : Nat) = 32 + 48 + 80 from rfl, sqChain_add, sqChain_add, chainP160seg0, chainP160seg1, chainP160seg2]
  have hcong32 : toPoly P160 ∣ toPoly 0x630ac64ee79374019225221b055ae72f173d1d4c - X ^ 2 ^ 32 := by
    apply chain_pow_congr 160 30 56 101 P160 32 0x630ac64ee79374019225221b055ae72f173d1d4c (by norm_num) (by norm_num) (by norm_num) hirr h2m
    exact chainP160seg0
  have hcong80 : toPoly P160 ∣ toPoly 0x69cb249c739a63a3a693a75d73c02847ae9c59eb - X ^ 2 ^ 80 := by
    apply chain_pow_congr 160 30 56 101 P160 80 0x69cb249c739a63a3a693a75d73c02847ae9c59eb (by norm_num) (by norm_num) (by norm_num) hirr h2m
    rw [show (80 : Nat) = 32 + 48 from rfl, sqChain_add, chainP160seg0, chainP160seg1]
  have hXdvd : toPoly P160 ∣ X ^ 2 ^ 160 - X := by
    have h := chain_pow_congr 160 30 56 101 P160 160 2 (by norm_num) (by norm_num) (by norm_num) hirr h2m hch
    rw [toPoly_two] at h
    exact dvd_sub_comm.mp h
  apply irreducible_of_rabin (toPoly P160) 160 (by norm_num) hdeg hXdvd
  intro r hr hrdvd
  have hfac : (160 : Nat) = 2 ^ 5 * 5 := by norm_num
  rw [hfac] at hrdvd
  have hrcase : r = 2 ∨ r = 5 := by
    rcases (Nat.Prime.dvd_mul hr).mp hrdvd with h | h
    · exact Or.inl ((Nat.prime_dvd_prime_iff_eq hr Nat.prime_two).mp (hr.dvd_of_dvd_pow h))
    · exact Or.inr ((Nat.prime_dvd_prime_iff_eq hr (by norm_num)).mp h)
  rcases hrcase with hr2 | hr2 <;> subst hr2
  · rw [show (160 / 2 : Nat) = 80 from rfl]
    exact isCoprime_of_cert P160 0x69cb249c739a63a3a693a75d73c02847ae9c59eb 0x23689b616dc889b1f9205b13bd570ac90844bfb5 0xe26fdf2faaf3fb86913b92366eab8831b8686294 80 hcong80 certP160cp80
  · rw [show (160 / 5 : Nat) = 32 from rfl]
    exact isCoprime_of_cert P160 0x630ac64ee79374019225221b055ae72f173d1d4c 0x38b0a7d17ef5f72291945b856abba91a9941acbf 0xb9547032b7f7c25d4625396f97445a4b7da56c49 32 hcong32 certP160cp32

theorem chainP192seg0 : sqChain 192 17 103 142 64 0x2 = 0xd8933d5f0759b05fad84bed1d132b23a4b5b359aa9ca062a := by
  decide!

theorem chainP192seg1 : sqChain 192 17 103 142 32 0xd8933d5f0759b05fad84bed1d132b23a4b5b359aa9ca062a = 0xea10f295682c3409d626ca53c0010e0430d01cdbbc5fcded := by
  decide!

theorem chainP192seg2 : sqChain 192 17 103 142 96 0xea10f295682c3409d626ca53c0010e0430d01cdbbc5fcded = 0x2 := by
  decide!

theorem certP192cp64 :
    mult_gf2 0x4e0eca3d2f43ec300ca343750c6c48a74a420896ea3f77b1 P192 ^^^ mult_gf2 0xf668d15679ffb929ae746f00ee37c3b3c941c71d98d1474e (0xd8933d5f0759b05fad84bed1d132b23a4b5b359aa9ca062a ^^^ 2) = 1 := by
  decide!

theorem certP192cp96 :
    mult_gf2 0xd969486f7a8378ed55fa6808e6a17aa4d62b6332db6107c P192 ^^^ mult_gf2 0x1581745feaf917680137528a69e1ca57b4d3959b2874c117 (0xea10f295682c3409d626ca53c0010e0430d01cdbbc5fcded ^^^ 2) = 1 := by
  decide!

theorem irreducible_P192 : Irreducible (toPoly P192) := by
  have hirr : toPoly P192 = 1 + X ^ 17 + X ^ 103 + X ^ 142 + X ^ 192 :=
    toPoly_irr5 17 103 142 192 (by norm_num) (by norm_num) (by norm_num) (by norm_num)
  have hne : P192 ≠ 0 := by
    have hp : 0 < P192 := by rw [P192]; positivity
    omega
  have hsize : Nat.size P192 = 193 := by
    rw [← bitLen_eq_size]
    decide!
  have hdeg : (toPoly P192).natDegree = 192 := by
    rw [toPoly_natDegree P192 hne, hsize]
  have h2m : (2 : Nat) < 2 ^ 192 := by norm_num
  have hch : sqChain 192 17 103 142 192 2 = 2 := by
    rw [show (192 : Nat) = 64 + 32 + 96 from rfl, sqChain_add, sqChain_add, chainP192seg0, chainP192seg1, chainP192seg2]
  have hcong64 : toPoly P192 ∣ toPoly 0xd8933d5f0759b05fad84bed1d132b23a4b5b359aa9ca062a - X ^ 2 ^ 64 := by
    apply chain_pow_congr 192 17 103 142 P192 64 0xd8933d5f0759b05fad84bed1d132b23a4b5b359aa9ca062a (by norm_num) (by norm_num) (by norm_num) hirr h2m
    exact chainP192seg0
  have hcong96 : toPoly P192 ∣ toPoly 0xea10f295682c3409d626ca53c0010e0430d01cdbbc5fcded - X ^ 2 ^ 96 := by
    apply chain_pow_congr 192 17 103 142 P192 96 0xea10f295682c3409d626ca53c0010e0430d01cdbbc5fcded (by norm_num) (by norm_num) (by norm_num) hirr h2m
    rw [show (96 : Nat) = 64 + 32 from rfl, sqChain_add, chainP192seg0, chainP192seg1]
  have hXdvd : toPoly P192 ∣ X ^ 2 ^ 192 - X := by
    have h := chain_pow_congr 192 17 103 142 P192 192 2 (by norm_num) (by norm_num) (by norm_num) hirr h2m hch
    rw [toPoly_two] at h
    exact dvd_sub_comm.mp h
  apply irreducible_of_rabin (toPoly P192) 192 (by norm_num) hdeg hXdvd
  intro r hr hrdvd
  have hfac : (192 : Nat) = 2 ^ 6 * 3 := by norm_num
  rw [hfac] at hrdvd
  have hrcase : r = 2 ∨ r = 3 := by
    rcases (Nat.Prime.dvd_mul hr).mp hrdvd with h | h
    · exact Or.inl ((Nat.prime_dvd_prime_iff_eq hr Nat.prime_two).mp (hr.dvd_of_dvd_pow h))
    · exact Or.inr ((Nat.prime_dvd_prime_iff_eq hr (by norm_num)).mp h)
  rcases hrcase with hr2 | hr2 <;> subst hr2
  · rw [show (192 / 2 : Nat) = 96 from rfl]
    exact isCoprime_of_cert P192 0xea10f295682c3409d626ca53c0010e0430d01cdbbc5fcded 0xd969486f7a8378ed55fa6808e6a17aa4d62b6332db6107c 0x1581745feaf917680137528a69e1ca57b4d3959b2874c117 96 hcong96 certP192cp96
  · rw [show (192 / 3 : Nat) = 64 from rfl]
    exact isCoprime_of_cert P192 0xd8933d5f0759b05fad84bed1d132b23a4b5b359aa9ca062a 0x4e0eca3d2f43ec300ca343750c6c48a74a420896ea3f77b1 0xf668d15679ffb929ae746f00ee37c3b3c941c71d98d1474e 64 hcong64 certP192cp64

theorem chainP224seg0 : sqChain 224 2 39 116 32 0x2 = 0xc00988310c908e02949f87f57b757ab0abfcf3b9039960eec823bf72 := by
  decide!

theorem chainP224seg1 : sqChain 224 2 39 116 80 0xc00988310c908e02949f87f57b757ab0abfcf3b9039960eec823bf72 = 0x24a91209049e7b57aa184094afa17ed2ee3ffb94c403d2674be28ad := by
  decide!

theorem chainP224seg2 : sqChain 224 2 39 116 112 0x24a91209049e7b57aa184094afa17ed2ee3ffb94c403d2674be28ad = 0x2 := by
  decide!

theorem certP224cp32 :
    mult_gf2 0x224919017c392c82bd5eed0028e0809a417a3e78ac83cdd9aa028be5 P224 ^^^ mult_gf2 0x78e6236611de20e6d79857e93ef7f05e978251baf838da50276bad51 (0xc00988310c908e02949f87f57b757ab0abfcf3b9039960eec823bf72 ^^^ 2) = 1 := by
  decide!

theorem certP224cp112 :
    mult_gf2 0x13d95960f4224b0843f359901f746d1a2aa8622df532f98f7fe0a79 P224 ^^^ mult_gf2 0x8dea8070fc19691cf5a6448bde1c3822115a492445f5a6c6036a3164 (0x24a91209049e7b57aa184094afa17ed2ee3ffb94c403d2674be28ad ^^^ 2) = 1 := by
  decide!

theorem irreducible_P224 : Irreducible (toPoly P224) := by
  have hirr : toPoly P224 = 1 + X ^ 2 + X ^ 39 + X ^ 116 + X ^ 224 :=
    toPoly_irr5 2 39 116 224 (by norm_num) (by norm_num) (by norm_num) (by norm_num)
  have hne : P224 ≠ 0 := by
    have hp : 0 < P224 := by rw [P224]; positivity
    omega
  have hsize : Nat.size P224 = 225 := by
    rw [← bitLen_eq_size]
    decide!
  have hdeg : (toPoly P224).natDegree = 224 := by
    rw [toPoly_natDegree P224 hne, hsize]
  have h2m : (2 : Nat) < 2 ^ 224 := by norm_num
  have hch : sqChain 224 2 39 116 224 2 = 2 := by
    rw [show (224 : Nat) = 32 + 80 + 112 from rfl, sqChain_add, sqChain_add, chainP224seg0, chainP224seg1, chainP224seg2]
  have hcong32 : toPoly P224 ∣ toPoly 0xc00988310c908e02949f87f57b757ab0abfcf3b9039960eec823bf72 - X ^ 2 ^ 32 := by
    apply chain_pow_congr 224 2 39 116 P224 32 0xc00988310c908e02949f87f57b757ab0abfcf3b9039960eec823bf72 (by norm_num) (by norm_num) (by norm_num) hirr h2m
    exact chainP224seg0
  have hcong112 : toPoly P224 ∣ toPoly 0x24a91209049e7b57aa184094afa17ed2ee3ffb94c403d2674be28ad - X ^ 2 ^ 112 := by
    apply chain_pow_congr 224 2 39 116 P224 112 0x24a91209049e7b57aa184094afa17ed2ee3ffb94c403d2674be28ad (by norm_num) (by norm_num) (by norm_num) hirr h2m
    rw [show (112 : Nat) = 32 + 80 from rfl, sqChain_add, chainP224seg0, chainP224seg1]
  have hXdvd : toPoly P224 ∣ X ^ 2 ^ 224 - X := by
    have h := chain_pow_congr 224 2 39 116 P224 224 2 (by norm_num) (by norm_num) (by norm_num) hirr h2m hch
    rw [toPoly_two] at h
    exact dvd_sub_comm.mp h
  apply irreducible_of_rabin (toPoly P224) 224 (by norm_num) hdeg hXdvd
  intro r hr hrdvd
  have hfac : (224 : Nat) = 2 ^ 5 * 7 := by norm_num
  rw [hfac] at hrdvd
  have hrcase : r = 2 ∨ r = 7 := by
    rcases (Nat.Prime.dvd_mul hr).mp hrdvd with h | h
    · exact Or.inl ((Nat.prime_dvd_prime_iff_eq hr Nat.prime_two).mp (hr.dvd_of_dvd_pow h))
    · exact Or.inr ((Nat.prime_dvd_prime_iff_eq hr (by norm_num)).mp h)
  rcases hrcase with hr2 | hr2 <;> subst hr2
  · rw [show (224 / 2 : Nat) = 112 from rfl]
    exact isCoprime_of_cert P224 0x24a91209049e7b57aa184094afa17ed2ee3ffb94c403d2674be28ad 0x13d95960f4224b0843f359901f746d1a2aa8622df532f98f7fe0a79 0x8dea8070fc19691cf5a6448bde1c3822115a492445f5a6c6036a3164 112 hcong112 certP224cp112
  · rw [show (224 / 7 : Nat) = 32 from rfl]
    exact isCoprime_of_cert P224 0xc00988310c908e02949f87f57b757ab0abfcf3b9039960eec823bf72 0x224919017c392c82bd5eed0028e0809a417a3e78ac83cdd9aa028be5 0x78e6236611de20e6d79857e93ef7f05e978251baf838da50276bad51 32 hcong32 certP224cp32

theorem chainP256seg0 : sqChain 256 121 178 241 128 0x2 = 0x8f04d1ffe326f85780a4b766975bbd44ded3673b96155247d8f2ccfdaab77e33 := by
  decide!

theorem chainP256seg1 : sqChain 256 121 178 241 128 0x8f04d1ffe326f85780a4b766975bbd44ded3673b96155247d8f2ccfdaab77e33 = 0x2 := by
  decide!

theorem certP256cp128 :
    mult_gf2 0x752037959e43c2a1a428d256099b12a27a0c741e3e69a0a2b8d9f89243c52b09 P256 ^^^ mult_gf2 0xe11933a646279fa90b0f1efe655bb15a3a493c1fb7caebc208cd576d8cb3a288 (0x8f04d1ffe326f85780a4b766975bbd44ded3673b96155247d8f2ccfdaab77e33 ^^^ 2) = 1 := by
  decide!

theorem irreducible_P256 : Irreducible (toPoly P256) := by
  have hirr : toPoly P256 = 1 + X ^ 121 + X ^ 178 + X ^ 241 + X ^ 256 :=
    toPoly_irr5 121 178 241 256 (by norm_num) (by norm_num) (by norm_num) (by norm_num)
  have hne : P256 ≠ 0 := by
    have hp : 0 < P256 := by rw [P256]; positivity
    omega
  have hsize : Nat.size P256 = 257 := by
    rw [← bitLen_eq_size]
    decide!
  have hdeg : (toPoly P256).natDegree = 256 := by
    rw [toPoly_natDegree P256 hne, hsize]
  have h2m : (2 : Nat) < 2 ^ 256 := by norm_num
  have hch : sqChain 256 121 178 241 256 2 = 2 := by
    rw [show (256 : Nat) = 128 + 128 from rfl, sqChain_add, chainP256seg0, chainP256seg1]
  have hcong128 : toPoly P256 ∣ toPoly 0x8f04d1ffe326f85780a4b766975bbd44ded3673b96155247d8f2ccfdaab77e33 - X ^ 2 ^ 128 := by
    apply chain_pow_congr 256 121 178 241 P256 128 0x8f04d1ffe326f85780a4b766975bbd44ded3673b96155247d8f2ccfdaab77e33 (by norm_num) (by norm_num) (by norm_num) hirr h2m
    exact chainP256seg0
  have hXdvd : toPoly P256 ∣ X ^ 2 ^ 256 - X := by
    have h := chain_pow_congr 256 121 178 241 P256 256 2 (by norm_num) (by norm_num) (by norm_num) hirr h2m hch
    rw [toPoly_two] at h
    exact dvd_sub_comm.mp h
  apply irreducible_of_rabin (toPoly P256) 256 (by norm_num) hdeg hXdvd
  intro r hr hrdvd
  have hfac : (256 : Nat) = 2 ^ 8 := by norm_num
  rw [hfac] at hrdvd
  have hr2 : r = 2 := (Nat.prime_dvd_prime_iff_eq hr Nat.prime_two).mp (hr.dvd_of_dvd_pow hrdvd)
  subst hr2
  rw [show (256 / 2 : Nat) = 128 from rfl]
  exact isCoprime_of_cert P256 0x8f04d1ffe326f85780a4b766975bbd44ded3673b96155247d8f2ccfdaab77e33 0x752037959e43c2a1a428d256099b12a27a0c741e3e69a0a2b8d9f89243c52b09 0xe11933a646279fa90b0f1efe655bb15a3a493c1fb7caebc208cd576d8cb3a288 128 hcong128 certP256cp128

theorem irreducible_table (fs irr : Nat) (htab : irr_poly_table fs = some irr) :
    Irreducible (toPoly irr) := by
  unfold irr_poly_table at htab
  split_ifs at htab with h1 h2 h3 h4 h5 <;>
    first
    | (injection htab with h
       subst h
       first
       | exact irreducible_P128
       | exact irreducible_P160
       | exact irreducible_P192
       | exact irreducible_P224
       | exact irreducible_P256)
    | exact absurd htab (by simp)

/-! ### Field-parameter facts derived from the table -/

theorem table_bounds (fs irr : Nat) (htab : irr_poly_table fs = some irr) :
    2 ^ fs ≤ irr ∧ irr < 2 ^ (fs + 1) ∧ fs / 8 * 8 = fs ∧ 2 ≤ fs := by
  unfold irr_poly_table at htab
  split_ifs at htab with h1 h2 h3 h4 h5 <;>
    first
    | (injection htab with h
       subst h
       subst_vars
       refine ⟨by norm_num, by norm_num, by norm_num, by norm_num⟩)
    | exact absurd htab (by simp)

/-- C3: for every supported field size and nonzero element `a`, the product
of `a` with `a.inverse()` is the multiplicative identity `1`. -/
theorem claim_C3 (fs irr a : Nat) (htab : irr_poly_table fs = some irr)
    (ha0 : a ≠ 0) (ha : a < 2 ^ fs) :
    ∃ w, elemInverse irr a = Except.ok w ∧ elemMul fs irr a w = 1 := by
  have hIrr : Irreducible (toPoly irr) := irreducible_table fs irr htab
  obtain ⟨hb1, hb2, _, hfs⟩ := table_bounds fs irr htab
  obtain ⟨hok, hdvd, hlt⟩ := elemInverse_spec fs irr a hb1 hb2 hIrr ha0 ha
  refine ⟨_, hok, ?_⟩
  obtain ⟨hm1, hm2⟩ := elemMul_spec fs irr a _ hb1 hb2 ha hlt
  have h1lt : 1 < 2 ^ fs := Nat.one_lt_two_pow_iff.mpr (by omega)
  apply toPoly_cong_eq fs irr _ 1 hb1 hb2 hm1 h1lt
  rw [toPoly_one]
  have hsum := dvd_add hm2 hdvd
  rwa [show toPoly (elemMul fs irr a (elemInvLoop (irr + 2) a irr 1 0)) -
      toPoly a * toPoly (elemInvLoop (irr + 2) a irr 1 0) +
      (toPoly (elemInvLoop (irr + 2) a irr 1 0) * toPoly a - 1) =
      toPoly (elemMul fs irr a (elemInvLoop (irr + 2) a irr 1 0)) - 1 by ring] at hsum

/-! ### Success of the collection phase of `combine` -/

theorem combineCollect_ok (fs : Nat) :
    ∀ (rest : List (Nat × List Nat)) (acc : List (Nat × Nat)),
      (∀ p ∈ rest, (p.2).length = fs / 8) →
      (acc.map Prod.fst ++ rest.map Prod.fst).Nodup →
      combineCollect fs rest acc =
        Except.ok (acc ++ rest.map (fun p => (p.1, bytesToNat p.2))) := by
  intro rest
  induction rest with
  | nil =>
    intro acc _ _
    simp [combineCollect]
  | cons p rest ih =>
    intro acc hw hnd
    obtain ⟨i, bs⟩ := p
    rw [combineCollect]
    have hwp : bs.length = fs / 8 := hw (i, bs) (List.mem_cons_self _ _)
    simp only [elemOfBytes, if_pos hwp]
    have hnotin : i ∉ acc.map Prod.fst := by
      intro hc
      refine (List.nodup_append.mp hnd).2.2 hc ?_
      simp
    have hany : acc.any (fun y => y.1 = i) = false := by
      rw [List.any_eq_false]
      intro y hy
      simp only [decide_eq_true_eq]
      intro hyi
      exact hnotin (List.mem_map.mpr ⟨y, hy, hyi⟩)
    rw [if_neg (by simp [hany])]
    rw [ih (acc ++ [(i, bytesToNat bs)]) (fun q hq => hw q (List.mem_cons_of_mem _ hq))
      (by
        rw [List.map_append, List.append_assoc, List.map_singleton]
        simpa using hnd)]
    simp

/-! ### Denominators of the Lagrange interpolation are nonzero -/

theorem combineProducts_denom (fs irr : Nat) (hfs : 0 < fs) (hirr1 : 2 ^ fs ≤ irr)
    (hirr2 : irr < 2 ^ (fs + 1)) (hIrr : Irreducible (toPoly irr))
    (gf : List (Nat × Nat)) (j : Nat) (hj : j < gf.length)
    (hidx : ∀ p ∈ gf, 0 < p.1 ∧ p.1 < 2 ^ fs)
    (hnd : (gf.map Prod.fst).Nodup) :
    (combineProducts fs irr gf j).2 ≠ 0 ∧ (combineProducts fs irr gf j).2 < 2 ^ fs := by
  have h1lt : 1 < 2 ^ fs := Nat.one_lt_two_pow_iff.mpr (by omega)
  suffices h : ∀ (l : List Nat) (acc : Nat × Nat), (∀ m ∈ l, m < gf.length) →
      acc.2 ≠ 0 → acc.2 < 2 ^ fs →
      (l.foldl (fun acc m =>
          if m = j then acc
          else
            (elemMul fs irr acc.1 (gf.getD m (0, 0)).1,
             elemMul fs irr acc.2 (elemAdd (gf.getD j (0, 0)).1 (gf.getD m (0, 0)).1)))
        acc).2 ≠ 0 ∧
      (l.foldl (fun acc m =>
          if m = j then acc
          else
            (elemMul fs irr acc.1 (gf.getD m (0, 0)).1,
             elemMul fs irr acc.2 (elemAdd (gf.getD j (0, 0)).1 (gf.getD m (0, 0)).1)))
        acc).2 < 2 ^ fs by
    exact h (List.range gf.length) (1, 1) (fun m hm => List.mem_range.mp hm)
      one_ne_zero h1lt
  intro l
  induction l with
  | nil =>
    intro acc _ h0 hlt
    exact ⟨h0, hlt⟩
  | cons m l ih =>
    intro acc hmem h0 hlt
    rw [List.foldl_cons]
    by_cases hmj : m = j
    · rw [if_pos hmj]
      exact ih acc (fun x hx => hmem x (List.mem_cons_of_mem _ hx)) h0 hlt
    · rw [if_neg hmj]
      have hm : m < gf.length := hmem m (List.mem_cons_self _ _)
      have hgj : gf.getD j (0, 0) = gf[j] := List.getD_eq_getElem gf (0, 0) hj
      have hgm : gf.getD m (0, 0) = gf[m] := List.getD_eq_getElem gf (0, 0) hm
      have hjmem : gf[j] ∈ gf := List.getElem_mem hj
      have hmmem : gf[m] ∈ gf := List.getElem_mem hm
      obtain ⟨hj0, hjlt⟩ := hidx _ hjmem
      obtain ⟨hm0, hmlt⟩ := hidx _ hmmem
      have hne : gf[j].1 ≠ gf[m].1 := by
        intro hc
        apply hmj
        have hmlen : m < (gf.map Prod.fst).length := by simpa using hm
        have hjlen : j < (gf.map Prod.fst).length := by simpa using hj
        have h1 : (gf.map Prod.fst)[m] = (gf.map Prod.fst)[j] := by
          rw [List.getElem_map, List.getElem_map]
          exact hc.symm
        exact ((List.Nodup.getElem_inj_iff hnd).mp h1)
      have hfac0 : (gf.getD j (0, 0)).1 ^^^ (gf.getD m (0, 0)).1 ≠ 0 := by
        rw [hgj, hgm, Ne, Nat.xor_eq_zero]
        exact hne
      have hfaclt : (gf.getD j (0, 0)).1 ^^^ (gf.getD m (0, 0)).1 < 2 ^ fs := by
        rw [hgj, hgm]
        exact Nat.xor_lt_two_pow hjlt hmlt
      refine ih _ (fun x hx => hmem x (List.mem_cons_of_mem _ hx)) ?_ ?_
      · exact elemMul_ne_zero fs irr acc.2 _ hirr1 hirr2 hIrr hlt hfaclt h0 hfac0
      · exact (elemMul_spec fs irr acc.2 _ hirr1 hirr2 hlt hfaclt).1

theorem combineSumAux_ok (fs irr : Nat) (hfs : 0 < fs) (hirr1 : 2 ^ fs ≤ irr)
    (hirr2 : irr < 2 ^ (fs + 1)) (hIrr : Irreducible (toPoly irr))
    (gf : List (Nat × Nat))
    (hidx : ∀ p ∈ gf, 0 < p.1 ∧ p.1 < 2 ^ fs)
    (hnd : (gf.map Prod.fst).Nodup) :
    ∀ (js : List Nat) (r : Nat), (∀ j ∈ js, j < gf.length) →
      ∃ v, combineSumAux fs irr gf js r = Except.ok v := by
  intro js
  induction js with
  | nil =>
    intro r _
    exact ⟨r, rfl⟩
  | cons j rest ih =>
    intro r hmem
    rw [combineSumAux]
    have hj : j < gf.length := hmem j (List.mem_cons_self _ _)
    have hden := combineProducts_denom fs irr hfs hirr1 hirr2 hIrr gf j hj hidx hnd
    simp only [elemInverse, if_neg hden.1]
    exact ih _ (fun x hx => hmem x (List.mem_cons_of_mem _ hx))

/-- C4: with pairwise-distinct indices in `[1, 2^m)` and payloads of the
active field width, `combine` never raises `InversionOfZero`: every
denominator passed to `inverse()` is nonzero. -/
theorem claim_C4 (mtb : String → List Nat) (mfb : List Nat → String)
    (s0 : Nat × String) (srest : List (Nat × String)) (fs irr : Nat)
    (hfs : fs = (mtb s0.2).length * 8)
    (htab : irr_poly_table fs = some irr)
    (hw : ∀ p ∈ s0 :: srest, (mtb p.2).length = fs / 8)
    (hrange : ∀ p ∈ s0 :: srest, 0 < p.1 ∧ p.1 < 2 ^ fs)
    (hnd : ((s0 :: srest).map Prod.fst).Nodup) :
    combine mtb mfb (s0 :: srest) ≠ Except.error ShamirErr.inversionOfZero := by
  have hIrr : Irreducible (toPoly irr) := irreducible_table fs irr htab
  obtain ⟨hb1, hb2, _, hfs2⟩ := table_bounds fs irr htab
  have hcombine : combine mtb mfb (s0 :: srest) =
      match irr_poly_table ((mtb s0.2).length * 8) with
      | none => Except.error ShamirErr.unsupportedFieldSize
      | some irr' =>
        match combineCollect ((mtb s0.2).length * 8)
            ((s0 :: srest).map (fun v => (v.1, mtb v.2))) [] with
        | Except.error e => Except.error e
        | Except.ok gf_shares =>
          match combineSum ((mtb s0.2).length * 8) irr' gf_shares with
          | Except.error e => Except.error e
          | Except.ok result =>
            Except.ok (mfb (elemEncode ((mtb s0.2).length * 8) result)) := rfl
  rw [hcombine, ← hfs, htab]
  have hcoll : combineCollect fs ((s0 :: srest).map (fun v => (v.1, mtb v.2))) [] =
      Except.ok ((s0 :: srest).map (fun v => (v.1, bytesToNat (mtb v.2)))) := by
    rw [combineCollect_ok fs _ []
      (by
        intro p hp
        obtain ⟨q, hq, rfl⟩ := List.mem_map.mp hp
        exact hw q hq)
      (by
        simp only [List.map_nil, List.nil_append, List.map_map]
        simpa [Function.comp] using hnd)]
    simp [List.map_map, Function.comp]
  rw [hcoll]
  set gf := (s0 :: srest).map (fun v => (v.1, bytesToNat (mtb v.2))) with hgf
  have hidx : ∀ p ∈ gf, 0 < p.1 ∧ p.1 < 2 ^ fs := by
    intro p hp
    obtain ⟨q, hq, rfl⟩ := List.mem_map.mp hp
    exact hrange q hq
  have hndgf : (gf.map Prod.fst).Nodup := by
    rw [hgf, List.map_map]
    simpa [Function.comp] using hnd
  obtain ⟨v, hv⟩ := combineSumAux_ok fs irr (by omega) hb1 hb2 hIrr gf hidx hndgf
    (List.range gf.length) 0 (fun j hj => List.mem_range.mp hj)
  have hsum : combineSum fs irr gf = Except.ok v := by
    rw [show combineSum fs irr gf = combineSumAux fs irr gf (List.range gf.length) 0 from rfl]
    exact hv
  simp [hsum]

/-! ### Byte-string encode/decode round-trips -/

theorem natToBytes_succ (len n : Nat) :
    natToBytes (len + 1) n = natToBytes len (n / 256) ++ [n % 256] := by
  unfold natToBytes
  rw [List.range_succ, List.map_append]
  congr 1
  · apply List.map_congr_left
    intro i hi
    have hilt : i < len := List.mem_range.mp hi
    have hexp : len + 1 - 1 - i = (len - 1 - i) + 1 := by omega
    rw [hexp, pow_succ, show 256 ^ (len - 1 - i) * 256 = 256 * 256 ^ (len - 1 - i) by ring,
      ← Nat.div_div_eq_div_mul]
  · simp

theorem bytesToNat_append_singleton (l : List Nat) (b : Nat) :
    bytesToNat (l ++ [b]) = bytesToNat l * 256 + b := by
  unfold bytesToNat
  rw [List.foldl_append]
  rfl

theorem bytesToNat_natToBytes (len n : Nat) :
    bytesToNat (natToBytes len n) = n % 256 ^ len := by
  induction len generalizing n with
  | zero =>
    simp [natToBytes, bytesToNat, Nat.mod_one]
  | succ len ih =>
    rw [natToBytes_succ, bytesToNat_append_singleton, ih]
    have hm : n % (256 * 256 ^ len) = n % 256 + 256 * (n / 256 % 256 ^ len) :=
      Nat.mod_mul
    have he : (256 : Nat) ^ (len + 1) = 256 * 256 ^ len := by rw [pow_succ]; ring
    rw [he, hm]
    ring

theorem natToBytes_bytesToNat (bs : List Nat) (hb : ∀ b ∈ bs, b < 256) :
    natToBytes bs.length (bytesToNat bs) = bs := by
  induction bs using List.reverseRecOn with
  | nil => rfl
  | append_singleton l b ih =>
    rw [bytesToNat_append_singleton, List.length_append, List.length_singleton,
      natToBytes_succ]
    have hblt : b < 256 := hb b (by simp)
    have hdiv : (bytesToNat l * 256 + b) / 256 = bytesToNat l := by omega
    have hmod : (bytesToNat l * 256 + b) % 256 = b := by omega
    rw [hdiv, hmod, ih (fun x hx => hb x (by simp [hx]))]

theorem bytesToNat_lt (bs : List Nat) (hb : ∀ b ∈ bs, b < 256) :
    bytesToNat bs < 256 ^ bs.length := by
  induction bs using List.reverseRecOn with
  | nil => simp [bytesToNat]
  | append_singleton l b ih =>
    rw [bytesToNat_append_singleton, List.length_append, List.length_singleton, pow_succ]
    have hblt : b < 256 := hb b (by simp)
    have hl := ih (fun x hx => hb x (by simp [hx]))
    calc bytesToNat l * 256 + b < (bytesToNat l + 1) * 256 := by omega
      _ ≤ 256 ^ l.length * 256 := by
          have : bytesToNat l + 1 ≤ 256 ^ l.length := by omega
          exact Nat.mul_le_mul_right _ this

theorem elemEncode_length (fs v : Nat) : (elemEncode fs v).length = fs / 8 := by
  simp [elemEncode, natToBytes]

theorem elemEncode_bytes_lt (fs v : Nat) : ∀ b ∈ elemEncode fs v, b < 256 := by
  intro b hb
  simp only [elemEncode, natToBytes, List.mem_map] at hb
  obtain ⟨i, _, rfl⟩ := hb
  exact Nat.mod_lt _ (by norm_num)

theorem bytesToNat_elemEncode (fs v : Nat) (h8 : fs / 8 * 8 = fs) (hv : v < 2 ^ fs) :
    bytesToNat (elemEncode fs v) = v := by
  rw [elemEncode, bytesToNat_natToBytes]
  apply Nat.mod_eq_of_lt
  have : (256 : Nat) ^ (fs / 8) = 2 ^ (fs / 8 * 8) := by
    rw [show (256 : Nat) = 2 ^ 8 from rfl, ← pow_mul, Nat.mul_comm]
  rw [this, h8]
  exact hv

theorem elemEncode_bytesToNat (fs : Nat) (bs : List Nat) (hlen : bs.length = fs / 8)
    (hb : ∀ b ∈ bs, b < 256) :
    elemEncode fs (bytesToNat bs) = bs := by
  rw [elemEncode, ← hlen]
  exact natToBytes_bytesToNat bs hb

/-! ### The transfer to the quotient field `GF(2)[x]/(irr)` -/

theorem phiF_add (irr x y : Nat) : phiF irr (x ^^^ y) = phiF irr x + phiF irr y := by
  rw [phiF, phiF, phiF, toPoly_xor, map_add]

theorem phiF_zero (irr : Nat) : phiF irr 0 = 0 := by
  rw [phiF, toPoly_zero, map_zero]

theorem phiF_one (irr : Nat) : phiF irr 1 = 1 := by
  rw [phiF, toPoly_one, map_one]

open Polynomial in
theorem phiF_two (irr : Nat) : phiF irr 2 = AdjoinRoot.root (toPoly irr) := by
  rw [phiF, toPoly_two, AdjoinRoot.mk_X]

theorem phiF_mul (fs irr x y : Nat) (hirr1 : 2 ^ fs ≤ irr) (hirr2 : irr < 2 ^ (fs + 1))
    (hx : x < 2 ^ fs) (hy : y < 2 ^ fs) :
    phiF irr (elemMul fs irr x y) = phiF irr x * phiF irr y := by
  have h := (elemMul_spec fs irr x y hirr1 hirr2 hx hy).2
  have hm := AdjoinRoot.mk_eq_mk.mpr h
  rw [map_mul] at hm
  exact hm

theorem phiF_inj (fs irr x y : Nat) (hirr1 : 2 ^ fs ≤ irr) (hirr2 : irr < 2 ^ (fs + 1))
    (hx : x < 2 ^ fs) (hy : y < 2 ^ fs) (h : phiF irr x = phiF irr y) : x = y :=
  toPoly_cong_eq fs irr x y hirr1 hirr2 hx hy (AdjoinRoot.mk_eq_mk.mp h)

theorem phiF_elemInverse (fs irr v : Nat) [hF : Fact (Irreducible (toPoly irr))]
    (hirr1 : 2 ^ fs ≤ irr) (hirr2 : irr < 2 ^ (fs + 1))
    (hv0 : v ≠ 0) (hv : v < 2 ^ fs) :
    phiF irr (elemInvLoop (irr + 2) v irr 1 0) = (phiF irr v)⁻¹ := by
  obtain ⟨_, hdvd, _⟩ := elemInverse_spec fs irr v hirr1 hirr2 hF.out hv0 hv
  have h1 : phiF irr (elemInvLoop (irr + 2) v irr 1 0) * phiF irr v = 1 := by
    have hm := AdjoinRoot.mk_eq_mk.mpr hdvd
    rw [map_mul, map_one] at hm
    exact hm
  exact eq_inv_of_mul_eq_one_left h1

/-! ### Horner evaluation transfers to polynomial evaluation -/

open Polynomial in
theorem horner_eval_aux (fs irr u : Nat) (hirr1 : 2 ^ fs ≤ irr) (hirr2 : irr < 2 ^ (fs + 1))
    (hu : u < 2 ^ fs) :
    ∀ (coeffs : List Nat) (acc : Nat) (q : Polynomial (AdjoinRoot (toPoly irr))),
      (∀ cc ∈ coeffs, cc < 2 ^ fs) → acc < 2 ^ fs →
      Polynomial.eval (phiF irr u) q = phiF irr acc →
      phiF irr (coeffs.foldl (fun a cc => elemAdd (elemMul fs irr a u) cc) acc) =
        Polynomial.eval (phiF irr u)
          (coeffs.foldl (fun p cc => p * X + C (phiF irr cc)) q) := by
  intro coeffs
  induction coeffs with
  | nil =>
    intro acc q _ _ hq
    exact hq.symm
  | cons c rest ih =>
    intro acc q hcc hacc hq
    rw [List.foldl_cons, List.foldl_cons]
    have hclt : c < 2 ^ fs := hcc c (List.mem_cons_self _ _)
    have haccs : elemAdd (elemMul fs irr acc u) c < 2 ^ fs := by
      rw [elemAdd]
      exact Nat.xor_lt_two_pow (elemMul_spec fs irr acc u hirr1 hirr2 hacc hu).1 hclt
    apply ih _ _ (fun x hx => hcc x (List.mem_cons_of_mem _ hx)) haccs
    rw [eval_add, eval_mul, eval_X, eval_C, hq, elemAdd, phiF_add,
      phiF_mul fs irr acc u hirr1 hirr2 hacc hu]

theorem hornerEvalSpec_lt (fs irr u : Nat) (hirr1 : 2 ^ fs ≤ irr)
    (hirr2 : irr < 2 ^ (fs + 1)) (hfs : 0 < fs) (hu : u < 2 ^ fs) (coeffs : List Nat)
    (hcc : ∀ cc ∈ coeffs, cc < 2 ^ fs) :
    hornerEvalSpec fs irr coeffs u < 2 ^ fs := by
  rw [hornerEvalSpec]
  have h1lt : 1 < 2 ^ fs := Nat.one_lt_two_pow_iff.mpr (by omega)
  have hgen : ∀ (l : List Nat) (acc : Nat), (∀ cc ∈ l, cc < 2 ^ fs) → acc < 2 ^ fs →
      l.foldl (fun a cc => elemAdd (elemMul fs irr a u) cc) acc < 2 ^ fs := by
    intro l
    induction l with
    | nil => intro acc _ h; exact h
    | cons c rest ih =>
      intro acc hc hacc
      rw [List.foldl_cons]
      apply ih _ (fun x hx => hc x (List.mem_cons_of_mem _ hx))
      rw [elemAdd]
      exact Nat.xor_lt_two_pow (elemMul_spec fs irr acc u hirr1 hirr2 hacc hu).1
        (hc c (List.mem_cons_self _ _))
  exact hgen coeffs 0 hcc (by positivity)

open Polynomial in
theorem phiF_hornerEvalSpec (fs irr u : Nat) (hirr1 : 2 ^ fs ≤ irr)
    (hirr2 : irr < 2 ^ (fs + 1)) (hu : u < 2 ^ fs) (coeffs : List Nat)
    (hcc : ∀ cc ∈ coeffs, cc < 2 ^ fs) :
    phiF irr (hornerEvalSpec fs irr coeffs u) =
      Polynomial.eval (phiF irr u) (hornerPoly irr coeffs) := by
  rw [hornerEvalSpec, hornerPoly]
  apply horner_eval_aux fs irr u hirr1 hirr2 hu coeffs 0 0 hcc (by positivity)
  rw [eval_zero, phiF_zero]

open Polynomial in
theorem hornerPoly_deg_aux (irr : Nat) [Fact (Irreducible (toPoly irr))] :
    ∀ (coeffs : List Nat) (q : Polynomial (AdjoinRoot (toPoly irr))) (b : ℕ),
      q.degree < (b : WithBot ℕ) →
      (coeffs.foldl (fun p cc => p * X + C (phiF irr cc)) q).degree <
        ((b + coeffs.length : ℕ) : WithBot ℕ) := by
  intro coeffs
  induction coeffs with
  | nil =>
    intro q b hq
    simpa using hq
  | cons c rest ih =>
    intro q b hq
    rw [List.foldl_cons]
    have hstep : (q * X + C (phiF irr c)).degree < ((b + 1 : ℕ) : WithBot ℕ) := by
      refine lt_of_le_of_lt (Polynomial.degree_add_le _ _) ?_
      rw [max_lt_iff]
      constructor
      · rw [Polynomial.degree_mul, Polynomial.degree_X]
        cases hdq : q.degree with
        | bot =>
          rw [WithBot.bot_add]
          exact WithBot.bot_lt_coe _
        | coe d =>
          rw [hdq, ← Nat.cast_withBot] at hq
          rw [← Nat.cast_withBot]
          have hdb : d < b := by exact_mod_cast hq
          exact_mod_cast (by omega : d + 1 < b + 1)
      · refine lt_of_le_of_lt Polynomial.degree_C_le ?_
        exact_mod_cast (by omega : (0 : ℕ) < b + 1)
    have hres := ih (q * X + C (phiF irr c)) (b + 1) hstep
    have hlen : b + 1 + rest.length = b + (c :: rest).length := by
      rw [List.length_cons]
      omega
    rwa [hlen] at hres

open Polynomial in
theorem hornerPoly_degree_lt (irr : Nat) [Fact (Irreducible (toPoly irr))]
    (coeffs : List Nat) :
    (hornerPoly irr coeffs).degree < ((coeffs.length : ℕ) : WithBot ℕ) := by
  rw [hornerPoly]
  have h := hornerPoly_deg_aux irr coeffs 0 0 (by simp)
  simpa using h

open Polynomial in
theorem hornerPoly_eval_zero (irr : Nat) :
    ∀ (coeffs : List Nat) (q : Polynomial (AdjoinRoot (toPoly irr))) (h : coeffs ≠ []),
      Polynomial.eval 0 (coeffs.foldl (fun p cc => p * X + C (phiF irr cc)) q) =
        phiF irr (coeffs.getLast h) := by
  intro coeffs
  induction coeffs with
  | nil =>
    intro q h
    exact absurd rfl h
  | cons c rest ih =>
    intro q h
    rw [List.foldl_cons]
    cases rest with
    | nil =>
      simp [List.getLast]
    | cons c2 rest2 =>
      rw [ih _ (by simp)]
      congr 1

open Polynomial Finset in
theorem lagrange_at_zero {F : Type} [Field F] [CharP F 2] (K : Nat) (xi : Nat → F)
    (hinj : Set.InjOn xi (Finset.range K)) (Q : F[X])
    (hdeg : Q.degree < ((K : Nat) : WithBot Nat)) :
    ∑ j ∈ Finset.range K, Polynomial.eval (xi j) Q *
        (∏ m ∈ (Finset.range K).erase j, xi m) *
        (∏ m ∈ (Finset.range K).erase j, (xi j + xi m))⁻¹ =
      Polynomial.eval 0 Q := by
  have hQ := Lagrange.eq_interpolate (s := Finset.range K) (v := xi) hinj
    (by rw [Finset.card_range]; exact hdeg)
  have h0 : Polynomial.eval 0 Q =
      ∑ j ∈ Finset.range K, Polynomial.eval (xi j) Q *
        Polynomial.eval 0 (Lagrange.basis (Finset.range K) xi j) := by
    conv_lhs => rw [hQ]
    rw [Lagrange.interpolate_apply, Polynomial.eval_finset_sum]
    apply Finset.sum_congr rfl
    intro j _
    rw [Polynomial.eval_mul, Polynomial.eval_C]
  rw [h0]
  apply Finset.sum_congr rfl
  intro j _
  rw [Lagrange.basis, Polynomial.eval_prod]
  have hterm : ∀ m ∈ (Finset.range K).erase j,
      Polynomial.eval 0 (Lagrange.basisDivisor (xi j) (xi m)) = (xi j + xi m)⁻¹ * xi m := by
    intro m _
    rw [Lagrange.basisDivisor, Polynomial.eval_mul, Polynomial.eval_C, Polynomial.eval_sub,
      Polynomial.eval_X, Polynomial.eval_C, CharTwo.sub_eq_add, zero_sub, CharTwo.neg_eq]
  rw [Finset.prod_congr rfl hterm, Finset.prod_mul_distrib, Finset.prod_inv_distrib]
  ring

theorem prod_list_range {M : Type} [CommMonoid M] (K : Nat) (g : Nat → M) :
    ((List.range K).map g).prod = ∏ m ∈ Finset.range K, g m := by
  induction K with
  | zero => simp
  | succ K ih =>
    rw [List.range_succ, List.map_append, List.prod_append, Finset.prod_range_succ, ih]
    simp

theorem sum_list_range {M : Type} [AddCommMonoid M] (K : Nat) (g : Nat → M) :
    ((List.range K).map g).sum = ∑ m ∈ Finset.range K, g m := by
  induction K with
  | zero => simp
  | succ K ih =>
    rw [List.range_succ, List.map_append, List.sum_append, Finset.sum_range_succ, ih]
    simp

theorem prod_erase_eq_prod_ite {M : Type} [CommMonoid M] (s : Finset Nat) (j : Nat)
    (g : Nat → M) :
    ∏ m ∈ s.erase j, g m = ∏ m ∈ s, (if m = j then 1 else g m) := by
  calc ∏ m ∈ s.erase j, g m
      = ∏ m ∈ s.erase j, (if m = j then 1 else g m) :=
        Finset.prod_congr rfl (fun m hm => by rw [if_neg (Finset.ne_of_mem_erase hm)])
    _ = ∏ m ∈ s, (if m = j then 1 else g m) := Finset.prod_erase s (by simp)

theorem combineProducts_phi (fs irr : Nat) (hirr1 : 2 ^ fs ≤ irr)
    (hirr2 : irr < 2 ^ (fs + 1)) (hfs : 0 < fs) (gf : List (Nat × Nat)) (j : Nat)
    (hbound : ∀ p ∈ gf, p.1 < 2 ^ fs) :
    (combineProducts fs irr gf j).1 < 2 ^ fs ∧
    (combineProducts fs irr gf j).2 < 2 ^ fs ∧
    phiF irr (combineProducts fs irr gf j).1 =
      ∏ m ∈ Finset.range gf.length,
        (if m = j then 1 else phiF irr (gf.getD m (0, 0)).1) ∧
    phiF irr (combineProducts fs irr gf j).2 =
      ∏ m ∈ Finset.range gf.length,
        (if m = j then 1
         else phiF irr (gf.getD j (0, 0)).1 + phiF irr (gf.getD m (0, 0)).1) := by
  have h1lt : 1 < 2 ^ fs := Nat.one_lt_two_pow_iff.mpr (by omega)
  have hstep : ∀ (l : List Nat) (acc : Nat × Nat), (∀ m ∈ l, m < gf.length) →
      acc.1 < 2 ^ fs → acc.2 < 2 ^ fs →
      (l.foldl (fun acc m =>
          if m = j then acc
          else
            (elemMul fs irr acc.1 (gf.getD m (0, 0)).1,
             elemMul fs irr acc.2 (elemAdd (gf.getD j (0, 0)).1 (gf.getD m (0, 0)).1)))
        acc).1 < 2 ^ fs ∧
      (l.foldl (fun acc m =>
          if m = j then acc
          else
            (elemMul fs irr acc.1 (gf.getD m (0, 0)).1,
             elemMul fs irr acc.2 (elemAdd (gf.getD j (0, 0)).1 (gf.getD m (0, 0)).1)))
        acc).2 < 2 ^ fs ∧
      phiF irr (l.foldl (fun acc m =>
          if m = j then acc
          else
            (elemMul fs irr acc.1 (gf.getD m (0, 0)).1,
             elemMul fs irr acc.2 (elemAdd (gf.getD j (0, 0)).1 (gf.getD m (0, 0)).1)))
        acc).1 =
        phiF irr acc.1 *
          ((l.map (fun m => if m = j then 1 else phiF irr (gf.getD m (0, 0)).1)).prod) ∧
      phiF irr (l.foldl (fun acc m =>
          if m = j then acc
          else
            (elemMul fs irr acc.1 (gf.getD m (0, 0)).1,
             elemMul fs irr acc.2 (elemAdd (gf.getD j (0, 0)).1 (gf.getD m (0, 0)).1)))
        acc).2 =
        phiF irr acc.2 *
          ((l.map (fun m => if m = j then 1
            else phiF irr (gf.getD j (0, 0)).1 + phiF irr (gf.getD m (0, 0)).1)).prod) := by
    intro l
    induction l with
    | nil =>
      intro acc _ h1 h2
      refine ⟨h1, h2, by simp, by simp⟩
    | cons m l ih =>
      intro acc hmem h1 h2
      rw [List.foldl_cons, List.map_cons, List.map_cons, List.prod_cons, List.prod_cons]
      by_cases hmj : m = j
      · rw [if_pos hmj, if_pos hmj, if_pos hmj]
        obtain ⟨g1, g2, g3, g4⟩ := ih acc (fun x hx => hmem x (List.mem_cons_of_mem _ hx)) h1 h2
        exact ⟨g1, g2, by rw [g3, one_mul], by rw [g4, one_mul]⟩
      · rw [if_neg hmj, if_neg hmj, if_neg hmj]
        have hm : m < gf.length := hmem m (List.mem_cons_self _ _)
        have hxm : (gf.getD m (0, 0)).1 < 2 ^ fs := by
          rw [List.getD_eq_getElem gf (0, 0) hm]
          exact hbound _ (List.getElem_mem hm)
        have hxj : (gf.getD j (0, 0)).1 < 2 ^ fs ∨ j ≥ gf.length := by
          by_cases hj : j < gf.length
          · left
            rw [List.getD_eq_getElem gf (0, 0) hj]
            exact hbound _ (List.getElem_mem hj)
          · right
            omega
        have hsum : elemAdd (gf.getD j (0, 0)).1 (gf.getD m (0, 0)).1 < 2 ^ fs := by
          rw [elemAdd]
          rcases hxj with hxj | hxj
          · exact Nat.xor_lt_two_pow hxj hxm
          · rw [List.getD_eq_default _ _ (by omega)]
            simpa using hxm
        have hn1 : elemMul fs irr acc.1 (gf.getD m (0, 0)).1 < 2 ^ fs :=
          (elemMul_spec fs irr acc.1 _ hirr1 hirr2 h1 hxm).1
        have hn2 : elemMul fs irr acc.2
            (elemAdd (gf.getD j (0, 0)).1 (gf.getD m (0, 0)).1) < 2 ^ fs :=
          (elemMul_spec fs irr acc.2 _ hirr1 hirr2 h2 hsum).1
        obtain ⟨g1, g2, g3, g4⟩ := ih
          (elemMul fs irr acc.1 (gf.getD m (0, 0)).1,
           elemMul fs irr acc.2 (elemAdd (gf.getD j (0, 0)).1 (gf.getD m (0, 0)).1))
          (fun x hx => hmem x (List.mem_cons_of_mem _ hx)) hn1 hn2
        refine ⟨g1, g2, ?_, ?_⟩
        · rw [g3, phiF_mul fs irr acc.1 _ hirr1 hirr2 h1 hxm]
          ring
        · rw [g4, phiF_mul fs irr acc.2 _ hirr1 hirr2 h2 hsum, elemAdd, phiF_add]
          ring
  obtain ⟨g1, g2, g3, g4⟩ := hstep (List.range gf.length) (1, 1)
    (fun m hm => List.mem_range.mp hm) h1lt h1lt
  refine ⟨g1, g2, ?_, ?_⟩
  · rw [show (combineProducts fs irr gf j).1 = (List.foldl (fun acc m =>
      if m = j then acc
      else
        (elemMul fs irr acc.1 (gf.getD m (0, 0)).1,
         elemMul fs irr acc.2 (elemAdd (gf.getD j (0, 0)).1 (gf.getD m (0, 0)).1)))
      (1, 1) (List.range gf.length)).1 from rfl, g3, phiF_one, one_mul, prod_list_range]
  · rw [show (combineProducts fs irr gf j).2 = (List.foldl (fun acc m =>
      if m = j then acc
      else
        (elemMul fs irr acc.1 (gf.getD m (0, 0)).1,
         elemMul fs irr acc.2 (elemAdd (gf.getD j (0, 0)).1 (gf.getD m (0, 0)).1)))
      (1, 1) (List.range gf.length)).2 from rfl, g4, phiF_one, one_mul, prod_list_range]

theorem combineSumAux_phi (fs irr : Nat) [hF : Fact (Irreducible (toPoly irr))]
    (hirr1 : 2 ^ fs ≤ irr) (hirr2 : irr < 2 ^ (fs + 1)) (hfs : 0 < fs)
    (gf : List (Nat × Nat))
    (hbound : ∀ p ∈ gf, p.1 < 2 ^ fs)
    (hval : ∀ p ∈ gf, p.2 < 2 ^ fs)
    (hnz : ∀ p ∈ gf, 0 < p.1)
    (hnd : (gf.map Prod.fst).Nodup) :
    ∀ (js : List Nat) (r : Nat), (∀ j ∈ js, j < gf.length) → r < 2 ^ fs →
      ∃ v, combineSumAux fs irr gf js r = Except.ok v ∧ v < 2 ^ fs ∧
        phiF irr v = phiF irr r + (js.map (fun j =>
          phiF irr (gf.getD j (0, 0)).2 *
            (∏ m ∈ Finset.range gf.length,
              (if m = j then 1 else phiF irr (gf.getD m (0, 0)).1)) *
            (∏ m ∈ Finset.range gf.length,
              (if m = j then 1
               else phiF irr (gf.getD j (0, 0)).1 + phiF irr (gf.getD m (0, 0)).1))⁻¹)).sum := by
  intro js
  induction js with
  | nil =>
    intro r _ hr
    exact ⟨r, rfl, hr, by simp⟩
  | cons j rest ih =>
    intro r hmem hr
    rw [combineSumAux]
    have hj : j < gf.length := hmem j (List.mem_cons_self _ _)
    have hden := combineProducts_denom fs irr (by omega) hirr1 hirr2 hF.out gf j hj
      (fun p hp => ⟨hnz p hp, hbound p hp⟩) hnd
    obtain ⟨hp1, hp2, hnum, hdenp⟩ := combineProducts_phi fs irr hirr1 hirr2 hfs gf j hbound
    simp only [elemInverse, if_neg hden.1]
    have hyj : (gf.getD j (0, 0)).2 < 2 ^ fs := by
      rw [List.getD_eq_getElem gf (0, 0) hj]
      exact hval _ (List.getElem_mem hj)
    obtain ⟨_, hinvdvd, hinvlt⟩ :=
      elemInverse_spec fs irr (combineProducts fs irr gf j).2 hirr1 hirr2 hF.out hden.1 hden.2
    have hterm1 : elemMul fs irr (gf.getD j (0, 0)).2 (combineProducts fs irr gf j).1
        < 2 ^ fs :=
      (elemMul_spec fs irr _ _ hirr1 hirr2 hyj hp1).1
    have hterm2 : elemMul fs irr
        (elemMul fs irr (gf.getD j (0, 0)).2 (combineProducts fs irr gf j).1)
        (elemInvLoop (irr + 2) (combineProducts fs irr gf j).2 irr 1 0) < 2 ^ fs :=
      (elemMul_spec fs irr _ _ hirr1 hirr2 hterm1 hinvlt).1
    have hracc : elemAdd r (elemMul fs irr
        (elemMul fs irr (gf.getD j (0, 0)).2 (combineProducts fs irr gf j).1)
        (elemInvLoop (irr + 2) (combineProducts fs irr gf j).2 irr 1 0)) < 2 ^ fs := by
      rw [elemAdd]
      exact Nat.xor_lt_two_pow hr hterm2
    obtain ⟨v, hv, hvlt, hvphi⟩ := ih _ (fun x hx => hmem x (List.mem_cons_of_mem _ hx)) hracc
    refine ⟨v, hv, hvlt, ?_⟩
    rw [hvphi, elemAdd, phiF_add,
      phiF_mul fs irr _ _ hirr1 hirr2 hterm1 hinvlt,
      phiF_mul fs irr _ _ hirr1 hirr2 hyj hp1,
      phiF_elemInverse fs irr _ hirr1 hirr2 hden.1 hden.2,
      hnum, hdenp, List.map_cons, List.sum_cons]
    ring

/-! ### Facts about the derived coefficients and the stages of a round trip -/

theorem split_ok (mtb : String → List Nat) (mfb : List Nat → String)
    (pbkdf2 : String → String → Nat → Nat → List Nat) (k n : Nat) (secret : String)
    (irr : Nat) (htab : irr_poly_table ((mtb secret).length * 8) = some irr)
    (hlens : ∀ bs ∈ mnemonic_to_shares mtb pbkdf2 secret k,
      bs.length = ((mtb secret).length * 8) / 8) :
    split mtb mfb pbkdf2 k n secret = Except.ok ((List.range n).map (fun i =>
      (i + 1, make_share mfb ((mtb secret).length * 8) irr (i + 1)
        (derivedCoeffs mtb pbkdf2 secret k)))) := by
  unfold split splitSt
  simp only [set_field_size, htab, Option.getD_some, elemsOf_ok _ _ hlens]
  rfl

theorem mnemonic_to_shares_lens (mtb : String → List Nat)
    (pbkdf2 : String → String → Nat → Nat → List Nat) (secret : String) (k : Nat)
    (hpb : ∀ pw salt r d, (pbkdf2 pw salt r d).length = d) :
    ∀ bs ∈ mnemonic_to_shares mtb pbkdf2 secret k,
      bs.length = ((mtb secret).length * 8) / 8 := by
  intro bs hbs
  rw [Nat.mul_div_cancel _ (by omega)]
  unfold mnemonic_to_shares at hbs
  rcases List.mem_append.mp hbs with h | h
  · obtain ⟨i, _, rfl⟩ := List.mem_map.mp h
    exact hpb _ _ _ _
  · rw [List.mem_singleton.mp h]

theorem derivedCoeffs_length (mtb : String → List Nat)
    (pbkdf2 : String → String → Nat → Nat → List Nat) (secret : String) (k : Nat)
    (hk : 1 ≤ k) :
    (derivedCoeffs mtb pbkdf2 secret k).length = k := by
  rw [derivedCoeffs, List.length_map, mnemonic_to_shares_length]
  omega

theorem derivedCoeffs_getLast (mtb : String → List Nat)
    (pbkdf2 : String → String → Nat → Nat → List Nat) (secret : String) (k : Nat)
    (h : derivedCoeffs mtb pbkdf2 secret k ≠ []) :
    (derivedCoeffs mtb pbkdf2 secret k).getLast h = bytesToNat (mtb secret) := by
  have h1 : (derivedCoeffs mtb pbkdf2 secret k).getLast? = some (bytesToNat (mtb secret)) := by
    rw [derivedCoeffs, mnemonic_to_shares, List.map_append]
    simp
  have h2 := List.getLast?_eq_getLast (derivedCoeffs mtb pbkdf2 secret k) h
  rw [h1] at h2
  exact (Option.some.inj h2).symm

theorem derivedCoeffs_bound (mtb : String → List Nat)
    (pbkdf2 : String → String → Nat → Nat → List Nat) (secret : String) (k fs : Nat)
    (hfs : fs = (mtb secret).length * 8)
    (hsecbytes : ∀ b ∈ mtb secret, b < 256)
    (hpb : ∀ pw salt r d, (pbkdf2 pw salt r d).length = d)
    (hpbbytes : ∀ pw salt r d, ∀ b ∈ pbkdf2 pw salt r d, b < 256) :
    ∀ cc ∈ derivedCoeffs mtb pbkdf2 secret k, cc < 2 ^ fs := by
  have h256 : ∀ (bs : List Nat), bs.length = (mtb secret).length →
      (∀ b ∈ bs, b < 256) → bytesToNat bs < 2 ^ fs := by
    intro bs hlen hb
    have h := bytesToNat_lt bs hb
    rw [hlen] at h
    calc bytesToNat bs < 256 ^ (mtb secret).length := h
      _ = 2 ^ fs := by
          rw [hfs, show (256 : Nat) = 2 ^ 8 from rfl, ← pow_mul, Nat.mul_comm]
  intro cc hcc
  rw [derivedCoeffs] at hcc
  obtain ⟨bs, hbs, rfl⟩ := List.mem_map.mp hcc
  unfold mnemonic_to_shares at hbs
  rcases List.mem_append.mp hbs with h | h
  · obtain ⟨i, _, rfl⟩ := List.mem_map.mp h
    exact h256 _ (hpb _ _ _ _) (hpbbytes _ _ _ _)
  · rw [List.mem_singleton.mp h]
    exact h256 _ rfl hsecbytes

theorem combine_ok_eq (mtb : String → List Nat) (mfb : List Nat → String)
    (s0 : Nat × String) (srest : List (Nat × String)) (fs irr : Nat)
    (hfs : fs = (mtb s0.2).length * 8)
    (htab : irr_poly_table fs = some irr)
    (hw : ∀ p ∈ s0 :: srest, (mtb p.2).length = fs / 8)
    (hnd : ((s0 :: srest).map Prod.fst).Nodup) :
    combine mtb mfb (s0 :: srest) =
      match combineSum fs irr
          ((s0 :: srest).map (fun v => (v.1, bytesToNat (mtb v.2)))) with
      | Except.error e => Except.error e
      | Except.ok result => Except.ok (mfb (elemEncode fs result)) := by
  have hcombine : combine mtb mfb (s0 :: srest) =
      match irr_poly_table ((mtb s0.2).length * 8) with
      | none => Except.error ShamirErr.unsupportedFieldSize
      | some irr' =>
        match combineCollect ((mtb s0.2).length * 8)
            ((s0 :: srest).map (fun v => (v.1, mtb v.2))) [] with
        | Except.error e => Except.error e
        | Except.ok gf_shares =>
          match combineSum ((mtb s0.2).length * 8) irr' gf_shares with
          | Except.error e => Except.error e
          | Except.ok result =>
            Except.ok (mfb (elemEncode ((mtb s0.2).length * 8) result)) := rfl
  rw [hcombine, ← hfs, htab]
  have hcoll : combineCollect fs ((s0 :: srest).map (fun v => (v.1, mtb v.2))) [] =
      Except.ok ((s0 :: srest).map (fun v => (v.1, bytesToNat (mtb v.2)))) := by
    rw [combineCollect_ok fs _ []
      (by
        intro p hp
        obtain ⟨q, hq, rfl⟩ := List.mem_map.mp hp
        exact hw q hq)
      (by
        simp only [List.map_nil, List.nil_append, List.map_map]
        simpa [Function.comp] using hnd)]
    simp [List.map_map, Function.comp]
  rw [hcoll]

theorem combine_ok_eq2 (mtb : String → List Nat) (mfb : List Nat → String)
    (shares : List (Nat × String)) (hne : shares ≠ []) (fs irr : Nat)
    (hfs : fs = (mtb (shares.head hne).2).length * 8)
    (htab : irr_poly_table fs = some irr)
    (hw : ∀ p ∈ shares, (mtb p.2).length = fs / 8)
    (hnd : (shares.map Prod.fst).Nodup) :
    combine mtb mfb shares =
      match combineSum fs irr (shares.map (fun v => (v.1, bytesToNat (mtb v.2)))) with
      | Except.error e => Except.error e
      | Except.ok result => Except.ok (mfb (elemEncode fs result)) := by
  obtain ⟨s0, srest, rfl⟩ := List.exists_cons_of_ne_nil hne
  exact combine_ok_eq mtb mfb s0 srest fs irr (by simpa using hfs) htab hw hnd

/-- C1 (amended with the side condition `n < 2^m`): for a supported secret,
`2 ≤ k` and an injective selection of `k` of the `n` shares produced by
`split`, `combine` returns the original secret. -/
theorem claim_C1 (mtb : String → List Nat) (mfb : List Nat → String)
    (pbkdf2 : String → String → Nat → Nat → List Nat) (secret : String)
    (fs irr k n : Nat) (sel : Fin k → Fin n)
    (hfs : fs = (mtb secret).length * 8)
    (htab : irr_poly_table fs = some irr)
    (hk : 2 ≤ k) (hn : n < 2 ^ fs)
    (hsel : Function.Injective sel)
    (hsecbytes : ∀ b ∈ mtb secret, b < 256)
    (hpb : ∀ pw salt r d, (pbkdf2 pw salt r d).length = d)
    (hpbbytes : ∀ pw salt r d, ∀ b ∈ pbkdf2 pw salt r d, b < 256)
    (hround : ∀ bs : List Nat, bs.length = fs / 8 → (∀ b ∈ bs, b < 256) →
      mtb (mfb bs) = bs)
    (hsec : mfb (mtb secret) = secret) :
    ∃ shares, split mtb mfb pbkdf2 k n secret = Except.ok shares ∧
      shares.length = n ∧
      combine mtb mfb (List.ofFn (fun t => shares.getD (sel t) (0, ""))) =
        Except.ok secret := by
  have hIrr : Irreducible (toPoly irr) := irreducible_table fs irr htab
  haveI := Fact.mk hIrr
  haveI : CharP (AdjoinRoot (toPoly irr)) 2 :=
    charP_of_injective_algebraMap
      (algebraMap (ZMod 2) (AdjoinRoot (toPoly irr))).injective 2
  obtain ⟨hb1, hb2, h8, hfs2⟩ := table_bounds fs irr htab
  have hL : fs / 8 = (mtb secret).length := by
    rw [hfs, Nat.mul_div_cancel _ (by omega)]
  have htab2 : irr_poly_table ((mtb secret).length * 8) = some irr := by
    rw [← hfs]
    exact htab
  have hlens := mnemonic_to_shares_lens mtb pbkdf2 secret k hpb
  set dcoeffs := derivedCoeffs mtb pbkdf2 secret k with hdc
  set shares := (List.range n).map (fun i =>
    (i + 1, make_share mfb ((mtb secret).length * 8) irr (i + 1) dcoeffs)) with hsh
  refine ⟨shares, split_ok mtb mfb pbkdf2 k n secret irr htab2 hlens, by simp [hsh], ?_⟩
  have hdclen : dcoeffs.length = k := derivedCoeffs_length mtb pbkdf2 secret k (by omega)
  have hdcne : dcoeffs ≠ [] := by
    intro hnil
    rw [hnil] at hdclen
    simp at hdclen
    omega
  have hdcb := derivedCoeffs_bound mtb pbkdf2 secret k fs hfs hsecbytes hpb hpbbytes
  have hk0 : 0 < k := by omega
  have hn0 : 0 < n := by
    have := (sel ⟨0, hk0⟩).isLt
    omega
  have husel : ∀ t : Fin k, ((sel t : Nat) + 1) < 2 ^ fs := by
    intro t
    have := (sel t).isLt
    omega
  have hyb : ∀ t : Fin k, hornerEvalSpec fs irr dcoeffs ((sel t : Nat) + 1) < 2 ^ fs :=
    fun t => hornerEvalSpec_lt fs irr _ hb1 hb2 (by omega) (husel t) dcoeffs hdcb
  have hSget : ∀ t : Fin k, shares.getD (sel t) (0, "") =
      ((sel t : Nat) + 1,
        mfb (elemEncode fs (hornerEvalSpec fs irr dcoeffs ((sel t : Nat) + 1)))) := by
    intro t
    rw [hsh, List.getD_eq_getElem _ _ (by simpa using (sel t).isLt)]
    simp only [List.getElem_map, List.getElem_range]
    rw [make_share_eq_horner, ← hfs]
  have hSeq : (List.ofFn (fun t => shares.getD (sel t) (0, ""))) =
      List.ofFn (fun t : Fin k => ((sel t : Nat) + 1,
        mfb (elemEncode fs (hornerEvalSpec fs irr dcoeffs ((sel t : Nat) + 1))))) :=
    congrArg List.ofFn (funext hSget)
  rw [hSeq]
  set S := List.ofFn (fun t : Fin k => ((sel t : Nat) + 1,
    mfb (elemEncode fs (hornerEvalSpec fs irr dcoeffs ((sel t : Nat) + 1))))) with hS
  have hSlen : S.length = k := by
    rw [hS, List.length_ofFn]
  have hSne : S ≠ [] := by
    intro hnil
    rw [hnil] at hSlen
    simp at hSlen
    omega
  have hwS : ∀ p ∈ S, (mtb p.2).length = fs / 8 := by
    intro p hp
    rw [hS] at hp
    obtain ⟨t, rfl⟩ := Set.mem_range.mp ((List.mem_ofFn _ _).mp hp)
    rw [hround _ (elemEncode_length fs _) (elemEncode_bytes_lt fs _), elemEncode_length]
  have hheadfs : fs = (mtb (S.head hSne).2).length * 8 := by
    rw [hwS _ (List.head_mem hSne), h8]
  have hndS : (S.map Prod.fst).Nodup := by
    rw [hS, List.map_ofFn]
    rw [List.nodup_ofFn]
    intro t1 t2 h
    simp only [Function.comp] at h
    exact hsel (Fin.val_injective (by omega))
  rw [combine_ok_eq2 mtb mfb S hSne fs irr hheadfs htab hwS hndS]
  -- the decoded share list
  have hgf : S.map (fun v => (v.1, bytesToNat (mtb v.2))) =
      List.ofFn (fun t : Fin k => ((sel t : Nat) + 1,
        hornerEvalSpec fs irr dcoeffs ((sel t : Nat) + 1))) := by
    rw [hS, List.map_ofFn]
    apply congrArg List.ofFn
    funext t
    simp only [Function.comp]
    rw [hround _ (elemEncode_length fs _) (elemEncode_bytes_lt fs _), bytesToNat_elemEncode fs _ h8 (hyb t)]
  rw [hgf]
  set gf := List.ofFn (fun t : Fin k => ((sel t : Nat) + 1,
    hornerEvalSpec fs irr dcoeffs ((sel t : Nat) + 1))) with hgfdef
  have hgflen : gf.length = k := by rw [hgfdef, List.length_ofFn]
  have hgfget : ∀ (j : Nat) (hj : j < k), gf.getD j (0, 0) =
      ((sel ⟨j, hj⟩ : Nat) + 1,
        hornerEvalSpec fs irr dcoeffs ((sel ⟨j, hj⟩ : Nat) + 1)) := by
    intro j hj
    rw [hgfdef, List.getD_eq_getElem _ _ (by rw [List.length_ofFn]; omega),
      List.getElem_ofFn]
  have hbound : ∀ p ∈ gf, p.1 < 2 ^ fs := by
    intro p hp
    obtain ⟨t, rfl⟩ := Set.mem_range.mp ((List.mem_ofFn _ _).mp hp)
    exact husel t
  have hval : ∀ p ∈ gf, p.2 < 2 ^ fs := by
    intro p hp
    obtain ⟨t, rfl⟩ := Set.mem_range.mp ((List.mem_ofFn _ _).mp hp)
    exact hyb t
  have hnz : ∀ p ∈ gf, 0 < p.1 := by
    intro p hp
    obtain ⟨t, rfl⟩ := Set.mem_range.mp ((List.mem_ofFn _ _).mp hp)
    omega
  have hndgf : (gf.map Prod.fst).Nodup := by
    rw [hgfdef, List.map_ofFn, List.nodup_ofFn]
    intro t1 t2 h
    simp only [Function.comp] at h
    exact hsel (Fin.val_injective (by omega))
  obtain ⟨v, hv, hvlt, hvphi⟩ := combineSumAux_phi fs irr hb1 hb2 (by omega) gf
    hbound hval hnz hndgf (List.range gf.length) 0
    (fun j hj => List.mem_range.mp hj) (by positivity)
  have hsumeq : combineSum fs irr gf = Except.ok v := by
    rw [show combineSum fs irr gf = combineSumAux fs irr gf (List.range gf.length) 0 from rfl]
    exact hv
  simp only [hsumeq]
  -- the interpolated value is the secret element
  have hsecb : bytesToNat (mtb secret) < 2 ^ fs := by
    have h := bytesToNat_lt (mtb secret) hsecbytes
    calc bytesToNat (mtb secret) < 256 ^ (mtb secret).length := h
      _ = 2 ^ fs := by
          rw [hfs, show (256 : Nat) = 2 ^ 8 from rfl, ← pow_mul, Nat.mul_comm]
  have hveq : v = bytesToNat (mtb secret) := by
    apply phiF_inj fs irr v _ hb1 hb2 hvlt hsecb
    rw [hvphi, phiF_zero, zero_add, sum_list_range, hgflen]
    set xi : Nat → AdjoinRoot (toPoly irr) :=
      fun m => phiF irr ((gf.getD m (0, 0)).1) with hxi
    have hinj : Set.InjOn xi (Finset.range k) := by
      intro j1 hj1 j2 hj2 heq
      have hj1k : j1 < k := by simpa using hj1
      have hj2k : j2 < k := by simpa using hj2
      rw [hxi] at heq
      simp only at heq
      rw [hgfget j1 hj1k, hgfget j2 hj2k] at heq
      have := phiF_inj fs irr _ _ hb1 hb2 (husel _) (husel _) heq
      have hseleq : sel ⟨j1, hj1k⟩ = sel ⟨j2, hj2k⟩ := Fin.val_injective (by omega)
      have := hsel hseleq
      simpa using congrArg Fin.val this
    have hQdeg : (hornerPoly irr dcoeffs).degree < ((k : Nat) : WithBot Nat) := by
      have := hornerPoly_degree_lt irr dcoeffs
      rwa [hdclen] at this
    have hlag := lagrange_at_zero k xi hinj (hornerPoly irr dcoeffs) hQdeg
    have hterm : ∀ j ∈ Finset.range k,
        phiF irr (gf.getD j (0, 0)).2 *
          (∏ m ∈ Finset.range k,
            (if m = j then 1 else phiF irr (gf.getD m (0, 0)).1)) *
          (∏ m ∈ Finset.range k,
            (if m = j then 1
             else phiF irr (gf.getD j (0, 0)).1 + phiF irr (gf.getD m (0, 0)).1))⁻¹ =
        Polynomial.eval (xi j) (hornerPoly irr dcoeffs) *
          (∏ m ∈ (Finset.range k).erase j, xi m) *
          (∏ m ∈ (Finset.range k).erase j, (xi j + xi m))⁻¹ := by
      intro j hj
      have hjk : j < k := by simpa using hj
      rw [prod_erase_eq_prod_ite (Finset.range k) j xi,
        prod_erase_eq_prod_ite (Finset.range k) j (fun m => xi j + xi m)]
      congr 2
      rw [hgfget j hjk]
      rw [phiF_hornerEvalSpec fs irr _ hb1 hb2 (husel _) dcoeffs hdcb]
      congr 1
      rw [hxi]
      simp only
      rw [hgfget j hjk]
    rw [Finset.sum_congr rfl hterm, hlag]
    have hev := hornerPoly_eval_zero irr dcoeffs 0 hdcne
    rw [show hornerPoly irr dcoeffs = dcoeffs.foldl
      (fun p cc => p * Polynomial.X + Polynomial.C (phiF irr cc)) 0 from rfl]
    rw [hev, derivedCoeffs_getLast]
  rw [hveq, elemEncode_bytesToNat fs (mtb secret) (by omega) hsecbytes, hsec]

/-- C1 counterexample: with `n ≥ 2^m` the share indices reach the value
`irr_poly ^^^ 1`; combining the shares with indices `1`, `2`, `irr_poly ^^^ 1`
(a 3-subset of the `n` shares of a `k = 3` split of a 16-byte secret) makes a
Lagrange denominator hit the `irr_poly`-special-case of multiplication, so
`combine` raises `InversionOfZero` instead of returning the secret. -/
theorem claim_C1_counterexample :
    ∃ shares : List (Nat × String),
      split mtb16 mfbChar pbkdf2Z 3 (P128 ^^^ 1) "s" = Except.ok shares ∧
      shares.length = P128 ^^^ 1 ∧
      2 < P128 ^^^ 1 ∧
      combine mtb16 mfbChar
        [shares.getD 0 (0, ""), shares.getD 1 (0, ""),
         shares.getD ((P128 ^^^ 1) - 1) (0, "")] =
        Except.error ShamirErr.inversionOfZero := by
  have htab16 : irr_poly_table ((mtb16 "s").length * 8) = some P128 := by decide!
  have hlens : ∀ bs ∈ mnemonic_to_shares mtb16 pbkdf2Z "s" 3,
      bs.length = ((mtb16 "s").length * 8) / 8 := by decide!
  have hn3 : 2 < P128 ^^^ 1 := by decide!
  refine ⟨_, split_ok mtb16 mfbChar pbkdf2Z 3 (P128 ^^^ 1) "s" P128 htab16 hlens,
    by simp, hn3, ?_⟩
  rw [List.getD_eq_getElem _ _ (by rw [List.length_map, List.length_range]; omega),
    List.getD_eq_getElem _ _ (by rw [List.length_map, List.length_range]; omega),
    List.getD_eq_getElem _ _ (by rw [List.length_map, List.length_range]; omega)]
  simp only [List.getElem_map, List.getElem_range]
  rw [show (P128 ^^^ 1) - 1 + 1 = P128 ^^^ 1 by omega]
  decide!

/-! ### Witness codec round-trip -/

theorem char_toNat_ofNat (b : Nat) (hb : b < 256) : (Char.ofNat b).toNat = b := by
  have hv : b.isValidChar := Or.inl (by omega)
  rw [Char.ofNat, dif_pos hv]
  show (Char.ofNatAux b hv).toNat = b
  rw [Char.ofNatAux, Char.toNat]
  exact BitVec.toNat_ofNatLt _ _

theorem mtbChar_mfbChar (bs : List Nat) (hb : ∀ b ∈ bs, b < 256) :
    mtbChar (mfbChar bs) = bs := by
  rw [mtbChar, mfbChar]
  rw [show (String.mk (bs.map Char.ofNat)).data = bs.map Char.ofNat from rfl, List.map_map]
  have hcong : ∀ x ∈ bs, (Char.toNat ∘ Char.ofNat) x = id x := by
    intro x hx
    exact char_toNat_ofNat x (hb x hx)
  calc List.map (Char.toNat ∘ Char.ofNat) bs = List.map id bs := List.map_congr_left hcong
    _ = bs := List.map_id bs

/-- Witness for C3: the inverse of `3` in `GF(2^128)` multiplies back to `1`. -/
theorem claim_C3_witness :
    ∃ w, elemInverse P128 3 = Except.ok w ∧ elemMul 128 P128 3 w = 1 :=
  claim_C3 128 P128 3 (by decide!) (by decide) (by decide!)

/-- Witness for C4: two distinct in-range shares never trigger
`InversionOfZero`. -/
theorem claim_C4_witness :
    combine mtbChar mfbChar
      [(1, mfbChar (List.replicate 16 0)), (2, mfbChar (List.replicate 16 0))] ≠
      Except.error ShamirErr.inversionOfZero :=
  claim_C4 mtbChar mfbChar (1, mfbChar (List.replicate 16 0))
    [(2, mfbChar (List.replicate 16 0))] 128 P128 (by decide!) (by decide!)
    (by decide!) (by decide!) (by decide!)

/-- Witness for C1 (amended): a 2-of-3 split of a 16-byte secret recombines
to the secret from the first two shares. -/
theorem claim_C1_witness :
    ∃ shares,
      split mtbChar mfbChar pbkdf2Z 2 3 "AAAAAAAAAAAAAAAA" = Except.ok shares ∧
      shares.length = 3 ∧
      combine mtbChar mfbChar
        (List.ofFn (fun t : Fin 2 =>
          shares.getD (Fin.castLE (by norm_num) t : Fin 3) (0, ""))) =
        Except.ok "AAAAAAAAAAAAAAAA" :=
  claim_C1 mtbChar mfbChar pbkdf2Z "AAAAAAAAAAAAAAAA" 128 P128 2 3
    (Fin.castLE (by norm_num)) (by decide!) (by decide!) (by decide) (by decide!)
    (Fin.castLE_injective _) (by decide!)
    (fun pw salt r d => by simp [pbkdf2Z])
    (fun pw salt r d b hb => by
      rw [pbkdf2Z] at hb
      have := List.eq_of_mem_replicate hb
      omega)
    (fun bs _ hb => mtbChar_mfbChar bs hb)
    (by decide!)
